import Mathlib

/-!
Verification of the drencher flood-fill puzzle solver.

This file gives a shallow embedding of the core of the drencher program
(`src/color.rs`, `src/board.rs`, `src/util/mod.rs`, `src/solver/exact.rs`)
and settles a list of claims about it.

Modelling conventions:
* Machine integers (`u8`, `u64`, `usize`) are modelled as `Nat` (or `Fin 256`
  for `u8`-valued set elements and graph indices), with an explicit `% 2^w`
  wherever the Rust code can overflow or truncate (e.g. `nodes.len() as u8`).
* `Vec<T>` is `List T`; indexing that can panic is modelled with `Option`
  (`none` = panic), and in-range indexing used on hot paths is modelled with
  a defaulted read, used only where the source code is panic-free.
* Unbounded loops (`while let`, `for depth in 0..`) are modelled with an
  explicit fuel parameter; a result of `none` for every fuel models
  divergence of the corresponding Rust loop.
-/

/-- Models `Color` from `src/color.rs`: a 6-valued tag (`tag: u8`, always in
`[0,6)` at every construction site of the program). -/
abbrev Color := Fin 6

/-- Models `Color::new`. Every call site of the program passes a tag `< 6`
(`Board::permutation` passes `n % 6`, the others pass literals `< 6`), so the
`% 6` reduction is the identity at every call site. -/
def Color.new (tag : Nat) : Color := ⟨tag % 6, Nat.mod_lt _ (by decide)⟩

/-- A grid coordinate `(x, y)`; models `type Pos = (u8, u8)`. -/
abbrev Pos := Nat × Nat

/-! ## The inline bit set (`InlineBitSet` in `src/solver/exact.rs`)

`InlineBitSet` stores subsets of `[0,256)` in four `u64` words
(`data: [u64; 4]`).  We model the four words as four `Nat` fields; the
predicate `InlineBitSet.Wf` states that each word fits in a `u64`, which is
an invariant of every value representable in the Rust type. -/

structure InlineBitSet where
  d0 : Nat
  d1 : Nat
  d2 : Nat
  d3 : Nat
deriving DecidableEq, Repr

namespace InlineBitSet

/-- The word `data[i]` of the set (callers always pass `i < 4`). -/
def word (s : InlineBitSet) : Nat → Nat
  | 0 => s.d0
  | 1 => s.d1
  | 2 => s.d2
  | _ => s.d3

/-- Builds a copy of `s` with word `i` replaced (callers always pass `i < 4`). -/
def updateWord (s : InlineBitSet) (i : Nat) (w : Nat) : InlineBitSet :=
  match i with
  | 0 => { s with d0 := w }
  | 1 => { s with d1 := w }
  | 2 => { s with d2 := w }
  | _ => { s with d3 := w }

/-- Each word fits in a `u64`; true of every Rust `InlineBitSet` value. -/
def Wf (s : InlineBitSet) : Prop :=
  s.d0 < 2 ^ 64 ∧ s.d1 < 2 ^ 64 ∧ s.d2 < 2 ^ 64 ∧ s.d3 < 2 ^ 64

instance (s : InlineBitSet) : Decidable s.Wf := by unfold Wf; infer_instance

/-- Models `InlineBitSet::empty`. -/
def empty : InlineBitSet := ⟨0, 0, 0, 0⟩

/-- Models `InlineBitSet::contains`: `data[query / 64] & (1 << query % 64) != 0`. -/
def contains (s : InlineBitSet) (query : Fin 256) : Bool :=
  s.word (query.val / 64) &&& (1 <<< (query.val % 64)) != 0

/-- Models `InlineBitSet::insert`: `data[elem / 64] |= 1 << (elem % 64)`. -/
def insert (s : InlineBitSet) (elem : Fin 256) : InlineBitSet :=
  s.updateWord (elem.val / 64) (s.word (elem.val / 64) ||| (1 <<< (elem.val % 64)))

/-- Models `InlineBitSet::with_only_first`. -/
def with_only_first : InlineBitSet := empty.insert 0

/-- Bit-count with an explicit bit-width bound (structural recursion on the
width). -/
def countOnesAux : Nat → Nat → Nat
  | 0, _ => 0
  | width + 1, n => if n = 0 then 0 else countOnesAux width (n / 2) + n % 2

/-- Bit-count of one machine word (`u64::count_ones`): counts the 64 bits of
the word (every word of a Rust `InlineBitSet` is below `2^64`). -/
def countOnes (n : Nat) : Nat := countOnesAux 64 n

/-- Models `InlineBitSet::len`: the fold
`self.data.iter().fold(0, |acc, block| acc + block.count_ones() as u8)` —
the accumulator is a `u8`, so every addition wraps modulo `2^8` (the
release-build semantics of overflow).  At the full 256-element set the
total popcount is 256 and the final addition wraps to `0`. -/
def len (s : InlineBitSet) : Nat :=
  [s.d0, s.d1, s.d2, s.d3].foldl (fun acc block => (acc + countOnes block) % 256) 0

/-- Models `InlineBitSet::is_empty`: all words are zero. -/
def is_empty (s : InlineBitSet) : Bool :=
  s.d0 == 0 && s.d1 == 0 && s.d2 == 0 && s.d3 == 0

/-- Models `InlineBitSet::is_subset_of`: for every word pair, `this & other == this`. -/
def is_subset_of (s other : InlineBitSet) : Bool :=
  s.d0 &&& other.d0 == s.d0 && (s.d1 &&& other.d1 == s.d1) &&
  (s.d2 &&& other.d2 == s.d2) && (s.d3 &&& other.d3 == s.d3)

/-- Models `InlineBitSet::count_common_elements`: the fold of
`acc + (a & b).count_ones() as u8` over the word pairs, with the `u8`
accumulator wrap of each addition made explicit. -/
def count_common_elements (a b : InlineBitSet) : Nat :=
  [(a.d0, b.d0), (a.d1, b.d1), (a.d2, b.d2), (a.d3, b.d3)].foldl
    (fun acc p => (acc + countOnes (p.1 &&& p.2)) % 256) 0

/-- Models `InlineBitSet::count_elements_only_in_first`: the fold of
`acc + (a ^ (b & b)).count_ones() as u8` over the word pairs (the `u8`
accumulator wraps) — note that the source really xors `a` with `b & b`
(which is `b`), not with `a & b`. -/
def count_elements_only_in_first (a b : InlineBitSet) : Nat :=
  [(a.d0, b.d0), (a.d1, b.d1), (a.d2, b.d2), (a.d3, b.d3)].foldl
    (fun acc p => (acc + countOnes (p.1 ^^^ (p.2 &&& p.2))) % 256) 0

/-- Models `InlineBitSet::union_with` (the result of the mutation). -/
def union_with (s other : InlineBitSet) : InlineBitSet :=
  ⟨s.d0 ||| other.d0, s.d1 ||| other.d1, s.d2 ||| other.d2, s.d3 ||| other.d3⟩

/-- Models `InlineBitSet::intersect_with` (the result of the mutation). -/
def intersect_with (s other : InlineBitSet) : InlineBitSet :=
  ⟨s.d0 &&& other.d0, s.d1 &&& other.d1, s.d2 &&& other.d2, s.d3 &&& other.d3⟩

/-- Models `InlineBitSet::without` (the result of the mutation):
per word, `this ^= this & other`. -/
def without (s other : InlineBitSet) : InlineBitSet :=
  ⟨s.d0 ^^^ (s.d0 &&& other.d0), s.d1 ^^^ (s.d1 &&& other.d1),
   s.d2 ^^^ (s.d2 &&& other.d2), s.d3 ^^^ (s.d3 &&& other.d3)⟩

/-- Models `InlineBitSet::union`. -/
def union (a b : InlineBitSet) : InlineBitSet := a.union_with b

/-- Models `InlineBitSet::intersection`. -/
def intersection (a b : InlineBitSet) : InlineBitSet := a.intersect_with b

/-- Models the set's iterator (`impl Iterator for Iter`): the members in
ascending order. -/
def members (s : InlineBitSet) : List (Fin 256) :=
  (List.finRange 256).filter s.contains

/-- The set of members, as a `Finset` over the `u8` domain. -/
def toFinset (s : InlineBitSet) : Finset (Fin 256) :=
  Finset.univ.filter (fun q => s.contains q = true)

end InlineBitSet

/-! ## `ColorSet` from `src/util/mod.rs`: a 6-color bit set in one `u8`. -/

structure ColorSet where
  data : Nat
deriving DecidableEq, Repr

namespace ColorSet

/-- Models `ColorSet::new`. -/
def new : ColorSet := ⟨0⟩

/-- Models `ColorSet::set`: `data |= 1 << c.tag`. -/
def set (s : ColorSet) (c : Color) : ColorSet := ⟨s.data ||| (1 <<< c.val)⟩

/-- Models `ColorSet::is_set`: `data & (1 << c.tag) != 0`. -/
def is_set (s : ColorSet) (c : Color) : Bool := s.data &&& (1 <<< c.val) != 0

/-- Models `ColorSet::clear` composed with nothing: cleared set is `new`. -/
def clear (_ : ColorSet) : ColorSet := new

/-- Models the `ColorSetIter` iterator: colors with set bit, ascending tags. -/
def members (s : ColorSet) : List Color := (List.finRange 6).filter s.is_set

end ColorSet

/-! ## `Board` from `src/board.rs` -/

structure Board where
  size : Nat
  cells : List Color
deriving DecidableEq, Repr

namespace Board

/-- Models `impl ops::Index<(u8, u8)> for Board` including its panics:
`none` models a panic, either from the explicit bounds check — which tests
`x > size || y > size`, not `>=` — or from the `Vec` indexing itself. -/
def get? (b : Board) (x y : Nat) : Option Color :=
  if x > b.size ∨ y > b.size then none
  else b.cells[y * b.size + x]?

/-- Models `impl ops::IndexMut<(u8, u8)> for Board` followed by a write,
with `none` modelling a panic exactly as in `Board.get?`. -/
def set? (b : Board) (x y : Nat) (c : Color) : Option Board :=
  if x > b.size ∨ y > b.size then none
  else if y * b.size + x < b.cells.length then
    some { b with cells := b.cells.set (y * b.size + x) c }
  else none

/-- The defaulted in-range read `self[(x, y)]`, used to model index reads on
code paths where the source never panics (all internal reads of the
algorithms are in range for well-formed boards of positive size). -/
def colorAt (b : Board) (x y : Nat) : Color := (b.get? x y).getD (Color.new 0)

/-- Models `Board::uniform`. -/
def uniform (size : Nat) : Board :=
  ⟨size, List.replicate (size ^ 2) (Color.new 0)⟩

/-- The cell list built by the loop of `Board::permutation`: cell `i` receives
base-6 digit `i` of `n`. -/
def permCells : Nat → Nat → List Color
  | 0, _ => []
  | k + 1, n => Color.new (n % 6) :: permCells k (n / 6)

/-- Models `Board::permutation`.  The permutation index is a `u64` in the
source, so only arguments `n < 2^64` correspond to Rust calls (the source's
own doc notes that boards of size ≥ 5 mostly lie beyond `u64::MAX`). -/
def permutation (size : Nat) (n : Nat) : Board := ⟨size, permCells (size ^ 2) n⟩

/-- The four conditional pushes of one `field_coords` iteration, in source
push order `(x-1,y)`, `(x,y-1)`, `(x+1,y)`, `(x,y+1)`; the list head is the
stack top, so the last push appears first. -/
def pushNeighbors (b : Board) (x y : Nat) (stack : List Pos) : List Pos :=
  (if y < b.size - 1 then [(x, y + 1)] else []) ++
  (if x < b.size - 1 then [(x + 1, y)] else []) ++
  (if 0 < y then [(x, y - 1)] else []) ++
  (if 0 < x then [(x - 1, y)] else []) ++ stack

/-- The `while let Some((x, y)) = stack.pop()` loop of `Board::field_coords`,
with an explicit fuel (the Rust loop is unbounded; `field_coords` passes fuel
that provably suffices).  The list `stack` holds its top at the head.  The
visited test mirrors the source: only cells recorded in `visited` (the region
cells) are ever skipped; border cells are never recorded. -/
def fieldCoordsLoop (b : Board) :
    Nat → List Pos → List Pos → List Pos → List Pos × List Pos
  | 0, _, visited, border => (visited, border)
  | _ + 1, [], visited, border => (visited, border)
  | fuel + 1, (x, y) :: stack, visited, border =>
    if (x, y) ∈ visited then
      fieldCoordsLoop b fuel stack visited border
    else if b.colorAt x y = b.colorAt 0 0 then
      fieldCoordsLoop b fuel (pushNeighbors b x y stack) (visited ++ [(x, y)]) border
    else
      fieldCoordsLoop b fuel stack visited (border ++ [(x, y)])

/-- Models `Board::field_coords`: the flood fill from `(0, 0)` returning the
visited (region) cells and the border cells. -/
def field_coords (b : Board) : List Pos × List Pos :=
  fieldCoordsLoop b (5 * b.size * b.size + 2) [(0, 0)] [] []

/-- Models `Board::drench`: if the chosen color differs from the color at
`(0, 0)`, write it to every cell of `field_coords().0` in order; `none`
models a panic of one of the index accesses. -/
def drench (b : Board) (new : Color) : Option Board :=
  if new ≠ b.colorAt 0 0 then
    (b.field_coords).1.foldlM (fun b' p => b'.set? p.1 p.2 new) b
  else some b

/-- Models `Board::is_drenched`: every cell equals the cell at `(0, 0)`. -/
def is_drenched (b : Board) : Bool :=
  b.cells.all (fun c => c = b.colorAt 0 0)

end Board

/-! ## Grid-level specification vocabulary (used to state the claims). -/

/-- The coordinate is inside the `size × size` grid. -/
def InBounds (b : Board) (p : Pos) : Prop := p.1 < b.size ∧ p.2 < b.size

instance (b : Board) (p : Pos) : Decidable (InBounds b p) := by
  unfold InBounds; infer_instance

/-- Four-neighbourhood of the grid (no bounds requirement). -/
def GridAdj (p q : Pos) : Prop :=
  (p.1 = q.1 ∧ (p.2 = q.2 + 1 ∨ q.2 = p.2 + 1)) ∨
  (p.2 = q.2 ∧ (p.1 = q.1 + 1 ∨ q.1 = p.1 + 1))

instance (p q : Pos) : Decidable (GridAdj p q) := by
  unfold GridAdj; infer_instance

/-- One step of the flood fill specification: move to an in-bounds
4-neighbour whose color is the anchor color of `b`. -/
def FloodStep (b : Board) (p q : Pos) : Prop :=
  InBounds b q ∧ GridAdj p q ∧ b.colorAt q.1 q.2 = b.colorAt 0 0

/-- The cell belongs to the 4-connected same-color region of the anchor
`(0, 0)`: it is reachable from the anchor through cells of the anchor
color. -/
def InRegion (b : Board) (p : Pos) : Prop :=
  Relation.ReflTransGen (FloodStep b) (0, 0) p

/-- The cell is a border cell: in bounds, of a different color than the
anchor, and 4-adjacent to some region cell. -/
def InBorder (b : Board) (p : Pos) : Prop :=
  InBounds b p ∧ b.colorAt p.1 p.2 ≠ b.colorAt 0 0 ∧
    ∃ q, InRegion b q ∧ GridAdj q p

/-! ## `CellMap` from `src/util/mod.rs` and `get_island` from
`src/solver/exact.rs` -/

structure CellMap where
  size : Nat
  cells : List Bool
deriving DecidableEq, Repr

namespace CellMap

/-- Models `CellMap::new(size, false)`. -/
def new (size : Nat) : CellMap := ⟨size, List.replicate (size ^ 2) false⟩

/-- Defaulted in-range read of `impl ops::Index for CellMap` (all reads of
`get_island` are in range for well-formed boards). -/
def get (m : CellMap) (p : Pos) : Bool :=
  (m.cells[p.2 * m.size + p.1]?).getD false

/-- In-range write of `impl ops::IndexMut for CellMap` (all writes of
`get_island` are in range for well-formed boards; `List.set` is the in-range
behaviour of the `Vec` store). -/
def set (m : CellMap) (p : Pos) (v : Bool) : CellMap :=
  { m with cells := m.cells.set (p.2 * m.size + p.1) v }

end CellMap

/-- The `add_neighbor!` macro of `get_island`: if the condition holds and the
cell is not yet visited, push it (list head = stack top) and mark it
visited. -/
def addNeighbor (cond : Bool) (p : Pos) (st : List Pos × CellMap) :
    List Pos × CellMap :=
  if cond && !st.2.get p then (p :: st.1, st.2.set p true)
  else st

/-- The four `add_neighbor!` invocations of `get_island`, in source order
`(x-1,y)`, `(x+1,y)`, `(x,y-1)`, `(x,y+1)` (the innermost application is the
first push). -/
def islandPush (b : Board) (x y : Nat) (st : List Pos × CellMap) :
    List Pos × CellMap :=
  addNeighbor (decide (y < b.size - 1)) (x, y + 1)
    (addNeighbor (decide (0 < y)) (x, y - 1)
      (addNeighbor (decide (x < b.size - 1)) (x + 1, y)
        (addNeighbor (decide (0 < x)) (x - 1, y) st)))

/-- The `while let Some((x, y)) = to_visit.pop()` loop of `get_island`, with
fuel (see `fieldCoordsLoop`); the `to_visit` list holds its top at the
head. -/
def getIslandLoop (b : Board) (init_color : Color) :
    Nat → List Pos → CellMap → List Pos → List Pos → List Pos × List Pos
  | 0, _, _, island, adjacent => (island, adjacent)
  | _ + 1, [], _, island, adjacent => (island, adjacent)
  | fuel + 1, (x, y) :: toVisit, visited, island, adjacent =>
    if b.colorAt x y = init_color then
      getIslandLoop b init_color fuel (islandPush b x y (toVisit, visited)).1
        (islandPush b x y (toVisit, visited)).2 (island ++ [(x, y)]) adjacent
    else
      getIslandLoop b init_color fuel toVisit visited island (adjacent ++ [(x, y)])

/-- Models `get_island` from `src/solver/exact.rs`: all cells of the island
around the given position, plus the directly adjacent cells. -/
def get_island (b : Board) (p : Pos) : List Pos × List Pos :=
  getIslandLoop b (b.colorAt p.1 p.2) (b.size * b.size + 2) [p]
    ((CellMap.new b.size).set p true) [] []

/-! ## `Graph` and `generate_graph` from `src/solver/exact.rs` -/

/-- Models `Node`: adjacency bit-set over node ids plus a color. -/
structure Node where
  adjacent : InlineBitSet
  color : Color
deriving DecidableEq, Repr

/-- Models `Graph`: a vector of nodes. -/
structure Graph where
  nodes : List Node
deriving DecidableEq, Repr

namespace Graph

/-- Models `Graph::len`: `self.nodes.len() as GraphIndex` — the length is
truncated to a `u8` by the cast. -/
def len (g : Graph) : Nat := g.nodes.length % 256

/-- Defaulted in-range read of `impl ops::Index<GraphIndex> for Graph`
(every index used by the program is a `u8` value smaller than
`nodes.len()`). -/
def node (g : Graph) (idx : Nat) : Node :=
  (g.nodes[idx]?).getD ⟨InlineBitSet.empty, Color.new 0⟩

/-- In-range write through `impl ops::IndexMut<GraphIndex> for Graph`. -/
def setNode (g : Graph) (idx : Nat) (n : Node) : Graph :=
  ⟨g.nodes.set idx n⟩

end Graph

/-- The builder state of `generate_graph`: the cell-to-node map (a
`BTreeMap<Pos, GraphIndex>`, modelled as an association list where the most
recent insertion shadows older ones) and the graph built so far.  Map values
are `u8` node ids (`Fin 256`). -/
structure GenState where
  map : List (Pos × Fin 256)
  g : Graph
deriving DecidableEq, Repr

/-- The edge insertion of `generate_graph` for one adjacent cell: if the
cell already has a node in the map, insert a bidirectional edge between that
node and the new node. -/
def edgeStep (map1 : List (Pos × Fin 256)) (new_id : Fin 256) (g : Graph)
    (pos : Pos) : Graph :=
  match map1.lookup pos with
  | some id =>
    let g' := g.setNode id.val
      { g.node id.val with
          adjacent := (g.node id.val).adjacent.insert new_id }
    g'.setNode new_id.val
      { g'.node new_id.val with
          adjacent := (g'.node new_id.val).adjacent.insert id }
  | none => g

/-- The body of the `for x / for y` loop of `generate_graph`, processing one
cell: skip it if already mapped, else flood its island, append the new node
(its id is the `u8`-cast current length), mark the island cells in the map,
then add the edges to the already existing neighbouring nodes. -/
def genStep (b : Board) (st : GenState) (p : Pos) : GenState :=
  if (st.map.lookup p).isSome then st
  else
    let res := get_island b p
    let new_id : Fin 256 := ⟨st.g.nodes.length % 256, Nat.mod_lt _ (by decide)⟩
    let map1 := res.1.foldl (fun m pos => (pos, new_id) :: m) st.map
    ⟨map1, res.2.foldl (edgeStep map1 new_id)
      ⟨st.g.nodes ++ [⟨InlineBitSet.empty, b.colorAt p.1 p.2⟩]⟩⟩

/-- The cell traversal order of `generate_graph`: `x` outer, `y` inner. -/
def cellOrder (size : Nat) : List Pos :=
  (List.range size).flatMap (fun x => (List.range size).map (fun y => (x, y)))

/-- Models `generate_graph` from `src/solver/exact.rs`. -/
def generate_graph (b : Board) : Graph :=
  ((cellOrder b.size).foldl (genStep b) ⟨[], ⟨[]⟩⟩).g

/-! ## The exact solver (`Exact::solve` in `src/solver/exact.rs`) -/

/-- Models `State`: one node of the game tree. -/
structure State where
  moves : List Color
  adjacent : InlineBitSet
  owned : InlineBitSet
deriving DecidableEq, Repr

/-- Models the `colored_nodes` array: for each color, the set of all node
ids of that color.  The source iterates `node_id in 0..g.len()` — note that
`g.len()` is the `u8`-truncated node count — and inserts each id into the
entry of its node's color; entry `c` therefore collects exactly the ids
below `g.len()` whose color is `c`, in ascending order. -/
def coloredNodes (g : Graph) (c : Color) : InlineBitSet :=
  (List.range g.len).foldl
    (fun s id => if (g.node id).color = c then
        s.insert ⟨id % 256, Nat.mod_lt _ (by decide)⟩
      else s)
    InlineBitSet.empty

/-- Models the initial state of the search: no moves, the adjacency of node
0, and only node 0 owned. -/
def initState (g : Graph) : State :=
  ⟨[], (g.node 0).adjacent, InlineBitSet.with_only_first⟩

/-- The `for color in 0..6` candidate-color loop of `Exact::solve`: if some
color's adjacent-node count equals its remaining-node count (and is
nonzero), that color is selected exclusively and the loop breaks; otherwise
every color with a nonzero adjacent count is added. -/
def adjColorsLoop (cn : Color → InlineBitSet) (st : State) :
    List Nat → ColorSet → ColorSet
  | [], acc => acc
  | color :: rest, acc =>
    let num_adj :=
      InlineBitSet.count_common_elements st.adjacent (cn (Color.new color))
    let num_remaining :=
      InlineBitSet.count_elements_only_in_first (cn (Color.new color)) st.owned
    if num_adj = num_remaining ∧ 0 < num_adj then
      (acc.clear.set (Color.new color))
    else if 0 < num_adj then
      adjColorsLoop cn st rest (acc.set (Color.new color))
    else
      adjColorsLoop cn st rest acc

/-- The candidate colors of a state (`adj_colors` in the source). -/
def adjColors (cn : Color → InlineBitSet) (st : State) : ColorSet :=
  adjColorsLoop cn st [0, 1, 2, 3, 4, 5] ColorSet.new

/-- The child state built by the expansion step of `Exact::solve` for one
candidate color: the new owned set, the new adjacent set (old adjacency
extended by the neighbours of the newly owned nodes, minus the new owned
set) and the extended move list. -/
def childState (g : Graph) (cn : Color → InlineBitSet) (st : State)
    (color : Color) : State :=
  let colored_adj := InlineBitSet.intersection st.adjacent (cn color)
  let new_owned := InlineBitSet.union st.owned colored_adj
  let new_adj :=
    (colored_adj.members.foldl
      (fun s neighbor_id => s.union_with (g.node neighbor_id.val).adjacent)
      st.adjacent).without new_owned
  ⟨st.moves ++ [color], new_adj, new_owned⟩

/-- The `for color in &adj_colors` loop: build a child per candidate color,
returning the move list immediately (`Except.error`) if a child's adjacent
set is empty, else accumulating the child for the next level. -/
def expandColors (g : Graph) (cn : Color → InlineBitSet) (st : State) :
    List Color → List State → Except (List Color) (List State)
  | [], acc => .ok acc
  | c :: cs, acc =>
    let child := childState g cn st c
    if child.adjacent.is_empty then .error child.moves
    else expandColors g cn st cs (acc ++ [child])

/-- The `for state in &states` loop: expand every surviving state in order,
accumulating `new_states`, with the early solution return threaded
through. -/
def expandStates (g : Graph) (cn : Color → InlineBitSet) :
    List State → List State → Except (List Color) (List State)
  | [], acc => .ok acc
  | st :: rest, acc =>
    match expandColors g cn st (adjColors cn st).members acc with
    | .error sol => .error sol
    | .ok acc' => expandStates g cn rest acc'

/-- The sort key `g.len() - state.owned.len()` — a `u8` subtraction, modelled
with the two's-complement wrap of release builds. -/
def sortKey (g : Graph) (st : State) : Nat :=
  (g.len + 256 - st.owned.len % 256) % 256

/-- Models `states.sort_by_key(...)`: a stable sort ascending by `sortKey`,
i.e. descending by owned-set cardinality. -/
def sortStates (g : Graph) (states : List State) : List State :=
  states.mergeSort (fun s1 s2 => sortKey g s1 ≤ sortKey g s2)

/-- The subset-pruning partition of `Exact::solve`: scan the sorted states
in order, keeping a state iff its owned set is a subset of no
previously-kept state's owned set.  This is the functional reading of the
in-place swap/truncate algorithm of the source (`kept` is the range
`[0..j]` in discovery order). -/
def pruneLoop : List State → List State → List State
  | kept, [] => kept
  | kept, s :: rest =>
    if kept.all (fun a => !(s.owned.is_subset_of a.owned)) then
      pruneLoop (kept ++ [s]) rest
    else
      pruneLoop kept rest

/-- One level (`depth`) of the breadth-first main loop: sort, prune, then
expand each surviving state. -/
def levelStep (g : Graph) (cn : Color → InlineBitSet) (states : List State) :
    Except (List Color) (List State) :=
  expandStates g cn (pruneLoop [] (sortStates g states)) []

/-- The `for depth in 0..` main loop of `Exact::solve`, with fuel: the Rust
loop is unbounded and ends only through the early solution return, so a
result of `none` for every fuel models divergence. -/
def solveLoop (g : Graph) (cn : Color → InlineBitSet) :
    Nat → List State → Option (List Color)
  | 0, _ => none
  | fuel + 1, states =>
    match levelStep g cn states with
    | .error sol => some sol
    | .ok next => solveLoop g cn fuel next

/-- Models `Exact::solve` (`impl Solver for Exact`): the already-uniform
early return, graph generation, the `colored_nodes` array, the initial
state, and the main loop.  `some moves` models `Ok(moves)`; the solver has
no `Err` path of its own. -/
def Exact.solve (b : Board) (fuel : Nat) : Option (List Color) :=
  if b.is_drenched then some []
  else
    let g := generate_graph b
    solveLoop g (coloredNodes g) fuel [initState g]

/-! ## Lemmas about `InlineBitSet` -/

namespace InlineBitSet

theorem countOnes_zero : countOnes 0 = 0 := by decide

theorem word_updateWord (s : InlineBitSet) (i w j : Nat) (hi : i < 4)
    (hj : j < 4) : (s.updateWord i w).word j = if i = j then w else s.word j := by
  interval_cases i <;> interval_cases j <;> simp [updateWord, word]

theorem div64_lt (q : Fin 256) : q.val / 64 < 4 := by omega

theorem contains_eq_testBit (s : InlineBitSet) (q : Fin 256) :
    s.contains q = (s.word (q.val / 64)).testBit (q.val % 64) := by
  have h := Nat.and_two_pow (s.word (q.val / 64)) (q.val % 64)
  cases hb : (s.word (q.val / 64)).testBit (q.val % 64) <;>
    simp [hb] at h <;>
    simp [contains, Nat.shiftLeft_eq, h, hb, Nat.pos_iff_ne_zero,
      Nat.pos_pow_of_pos]

theorem contains_empty (q : Fin 256) : empty.contains q = false := by
  rw [contains_eq_testBit]
  have : empty.word (q.val / 64) = 0 := by
    have := div64_lt q
    interval_cases h : q.val / 64 <;> rfl
  simp [this]

theorem contains_insert (s : InlineBitSet) (e q : Fin 256) :
    (s.insert e).contains q = (decide (q = e) || s.contains q) := by
  rw [contains_eq_testBit, contains_eq_testBit, insert,
    word_updateWord _ _ _ _ (div64_lt e) (div64_lt q)]
  by_cases hw : e.val / 64 = q.val / 64
  · rw [if_pos hw, Nat.testBit_lor, hw, Nat.shiftLeft_eq, one_mul,
      Nat.testBit_two_pow]
    have : (q = e) ↔ (e.val % 64 = q.val % 64) := by
      constructor
      · intro h; rw [h]
      · intro h
        have := Fin.val_eq_val q e
        omega
    by_cases hq : q = e
    · simp [hq, this.mp hq]
    · have : ¬ (e.val % 64 = q.val % 64) := fun h => hq (this.mpr h)
      simp [hq, this, Bool.or_comm]
  · rw [if_neg hw]
    have : ¬ (q = e) := by
      intro h; exact hw (by rw [h])
    simp [this]

theorem contains_with_only_first (q : Fin 256) :
    with_only_first.contains q = decide (q = 0) := by
  rw [with_only_first, contains_insert, contains_empty]
  simp

theorem word_union_with (a b : InlineBitSet) (j : Nat) (hj : j < 4) :
    (a.union_with b).word j = a.word j ||| b.word j := by
  interval_cases j <;> rfl

theorem contains_union_with (a b : InlineBitSet) (q : Fin 256) :
    (a.union_with b).contains q = (a.contains q || b.contains q) := by
  rw [contains_eq_testBit, contains_eq_testBit, contains_eq_testBit,
    word_union_with _ _ _ (div64_lt q), Nat.testBit_lor]

theorem contains_union (a b : InlineBitSet) (q : Fin 256) :
    (union a b).contains q = (a.contains q || b.contains q) :=
  contains_union_with a b q

theorem word_intersect_with (a b : InlineBitSet) (j : Nat) (hj : j < 4) :
    (a.intersect_with b).word j = a.word j &&& b.word j := by
  interval_cases j <;> rfl

theorem contains_intersect_with (a b : InlineBitSet) (q : Fin 256) :
    (a.intersect_with b).contains q = (a.contains q && b.contains q) := by
  rw [contains_eq_testBit, contains_eq_testBit, contains_eq_testBit,
    word_intersect_with _ _ _ (div64_lt q), Nat.testBit_land]

theorem contains_intersection (a b : InlineBitSet) (q : Fin 256) :
    (intersection a b).contains q = (a.contains q && b.contains q) :=
  contains_intersect_with a b q

theorem word_without (a b : InlineBitSet) (j : Nat) (hj : j < 4) :
    (a.without b).word j = a.word j ^^^ (a.word j &&& b.word j) := by
  interval_cases j <;> rfl

theorem contains_without (a b : InlineBitSet) (q : Fin 256) :
    (a.without b).contains q = (a.contains q && !(b.contains q)) := by
  rw [contains_eq_testBit, contains_eq_testBit, contains_eq_testBit,
    word_without _ _ _ (div64_lt q), Nat.testBit_xor, Nat.testBit_land]
  cases (a.word (q.val / 64)).testBit (q.val % 64) <;>
    cases (b.word (q.val / 64)).testBit (q.val % 64) <;> rfl

theorem mem_members (s : InlineBitSet) (q : Fin 256) :
    q ∈ s.members ↔ s.contains q = true := by
  simp [members, List.mem_filter, List.mem_finRange]

theorem mem_toFinset (s : InlineBitSet) (q : Fin 256) :
    q ∈ s.toFinset ↔ s.contains q = true := by
  simp [toFinset]

theorem count_common_elements_empty_right (s : InlineBitSet) :
    count_common_elements s empty = 0 := by
  simp [count_common_elements, empty, Nat.and_zero, countOnes_zero]

end InlineBitSet

/-! ## Lemmas about `ColorSet` -/

namespace ColorSet

theorem is_set_new (c : Color) : new.is_set c = false := by
  simp [is_set, new]

theorem members_new : new.members = [] := by
  simp [members, List.filter_eq_nil_iff, is_set_new]

end ColorSet

/-! ## Checkerboard boards and the node count of `generate_graph`

A two-color checkerboard makes every cell its own island, which realises the
extreme region counts of the capacity claims: `checkerboard 16` has exactly
256 regions (the documented capacity limit), `checkerboard 17` has 289. -/

/-- The `s × s` two-color checkerboard: cell `(x, y)` has color `(x+y) % 2`. -/
def checkerboard (s : Nat) : Board :=
  ⟨s, (List.range (s * s)).map (fun i => Color.new ((i / s + i % s) % 2))⟩

theorem checkerboard_colorAt (s x y : Nat) (hx : x < s) (hy : y < s) :
    (checkerboard s).colorAt x y = Color.new ((x + y) % 2) := by
  have hidx : y * s + x < s * s := by nlinarith
  have hdiv : (y * s + x) / s = y := by
    rw [Nat.add_comm, Nat.add_mul_div_right _ _ (by omega : 0 < s),
      Nat.div_eq_of_lt hx]
    omega
  have hmod : (y * s + x) % s = x := by
    rw [Nat.add_comm, Nat.add_mul_mod_self_right, Nat.mod_eq_of_lt hx]
  simp only [Board.colorAt, Board.get?, checkerboard]
  rw [if_neg (by omega)]
  rw [List.getElem?_map, List.getElem?_range hidx]
  simp [hdiv, hmod, Nat.add_comm x y]

theorem checkerboard_neighbor_ne (s : Nat) (p q : Pos)
    (hp : InBounds (checkerboard s) p) (hq : InBounds (checkerboard s) q)
    (hadj : GridAdj p q) :
    (checkerboard s).colorAt q.1 q.2 ≠ (checkerboard s).colorAt p.1 p.2 := by
  obtain ⟨x, y⟩ := p
  obtain ⟨u, v⟩ := q
  have hx : x < s := hp.1
  have hy : y < s := hp.2
  have hu : u < s := hq.1
  have hv : v < s := hq.2
  rw [checkerboard_colorAt s x y hx hy, checkerboard_colorAt s u v hu hv]
  intro h
  have hval : (u + v) % 2 % 6 = (x + y) % 2 % 6 := congrArg Fin.val h
  rcases hadj with ⟨h1, h2⟩ | ⟨h1, h2⟩ <;> simp at h1 <;> omega

/-- Every in-bounds cell of the board is its own island: the flood fill of
`get_island` returns exactly the singleton. -/
def SingletonIslands (b : Board) : Prop :=
  ∀ p, InBounds b p → (get_island b p).1 = [p]

theorem mem_addNeighbor (cond : Bool) (p q : Pos) (st : List Pos × CellMap)
    (h : q ∈ (addNeighbor cond p st).1) : (cond = true ∧ q = p) ∨ q ∈ st.1 := by
  unfold addNeighbor at h
  by_cases hc : (cond && !st.2.get p) = true
  · rw [if_pos hc] at h
    rcases List.mem_cons.mp h with rfl | h
    · exact Or.inl ⟨((Bool.and_eq_true _ _).mp hc).1, rfl⟩
    · exact Or.inr h
  · rw [if_neg hc] at h
    exact Or.inr h

theorem length_addNeighbor (cond : Bool) (p : Pos) (st : List Pos × CellMap) :
    (addNeighbor cond p st).1.length ≤ st.1.length + 1 := by
  unfold addNeighbor
  split <;> simp

theorem mem_islandPush (b : Board) (x y : Nat) (st : List Pos × CellMap)
    (q : Pos) (h : q ∈ (islandPush b x y st).1) :
    q ∈ st.1 ∨
    (q = (x, y + 1) ∧ y < b.size - 1) ∨ (q = (x, y - 1) ∧ 0 < y) ∨
    (q = (x + 1, y) ∧ x < b.size - 1) ∨ (q = (x - 1, y) ∧ 0 < x) := by
  unfold islandPush at h
  rcases mem_addNeighbor _ _ _ _ h with ⟨hc, rfl⟩ | h
  · exact Or.inr (Or.inl ⟨rfl, by simpa using hc⟩)
  rcases mem_addNeighbor _ _ _ _ h with ⟨hc, rfl⟩ | h
  · exact Or.inr (Or.inr (Or.inl ⟨rfl, by simpa using hc⟩))
  rcases mem_addNeighbor _ _ _ _ h with ⟨hc, rfl⟩ | h
  · exact Or.inr (Or.inr (Or.inr (Or.inl ⟨rfl, by simpa using hc⟩)))
  rcases mem_addNeighbor _ _ _ _ h with ⟨hc, rfl⟩ | h
  · exact Or.inr (Or.inr (Or.inr (Or.inr ⟨rfl, by simpa using hc⟩)))
  · exact Or.inl h

theorem length_islandPush (b : Board) (x y : Nat) (st : List Pos × CellMap) :
    (islandPush b x y st).1.length ≤ st.1.length + 4 := by
  unfold islandPush
  have l1 := length_addNeighbor (decide (0 < x)) (x - 1, y) st
  have l2 := length_addNeighbor (decide (x < b.size - 1)) (x + 1, y)
    (addNeighbor (decide (0 < x)) (x - 1, y) st)
  have l3 := length_addNeighbor (decide (0 < y)) (x, y - 1)
    (addNeighbor (decide (x < b.size - 1)) (x + 1, y)
      (addNeighbor (decide (0 < x)) (x - 1, y) st))
  have l4 := length_addNeighbor (decide (y < b.size - 1)) (x, y + 1)
    (addNeighbor (decide (0 < y)) (x, y - 1)
      (addNeighbor (decide (x < b.size - 1)) (x + 1, y)
        (addNeighbor (decide (0 < x)) (x - 1, y) st)))
  omega

theorem getIslandLoop_foreign (b : Board) (c : Color) :
    ∀ (fuel : Nat) (tv : List Pos) (vis : CellMap) (isl adj : List Pos),
    (∀ q ∈ tv, b.colorAt q.1 q.2 ≠ c) → tv.length < fuel →
    getIslandLoop b c fuel tv vis isl adj = (isl, adj ++ tv) := by
  intro fuel
  induction fuel with
  | zero => intro tv _ _ _ hcol hlen; omega
  | succ n ih =>
    intro tv vis isl adj hcol hlen
    match tv with
    | [] => simp [getIslandLoop]
    | (x, y) :: rest =>
      rw [getIslandLoop]
      rw [if_neg (hcol (x, y) (by simp))]
      rw [ih rest vis isl (adj ++ [(x, y)])
        (fun q hq => hcol q (by simp [hq])) (by simp at hlen ⊢; omega)]
      simp

theorem get_island_singleton (b : Board) (p : Pos) (hp : InBounds b p)
    (hn : ∀ q, InBounds b q → GridAdj p q →
      b.colorAt q.1 q.2 ≠ b.colorAt p.1 p.2) :
    (get_island b p).1 = [p] := by
  obtain ⟨x, y⟩ := p
  have hx : x < b.size := hp.1
  have hy : y < b.size := hp.2
  rw [get_island, getIslandLoop, if_pos rfl]
  have hcol : ∀ q ∈ (islandPush b x y
      ([], (CellMap.new b.size).set (x, y) true)).1,
      b.colorAt q.1 q.2 ≠ b.colorAt (x, y).1 (x, y).2 := by
    intro q hq
    rcases mem_islandPush _ _ _ _ _ hq with h | ⟨rfl, hb⟩ | ⟨rfl, hb⟩ |
      ⟨rfl, hb⟩ | ⟨rfl, hb⟩
    · simp at h
    · exact hn _ ⟨hx, by omega⟩ (Or.inl ⟨rfl, Or.inr rfl⟩)
    · exact hn _ ⟨hx, by omega⟩ (Or.inl ⟨rfl, Or.inl (by omega)⟩)
    · exact hn _ ⟨by omega, hy⟩ (Or.inr ⟨rfl, Or.inr rfl⟩)
    · exact hn _ ⟨by omega, hy⟩ (Or.inr ⟨rfl, Or.inl (by omega)⟩)
  have hlen : (islandPush b x y
      ([], (CellMap.new b.size).set (x, y) true)).1.length <
      b.size * b.size + 1 := by
    rcases Nat.lt_or_ge b.size 2 with hs2 | hs2
    · have hsz : b.size = 1 := by omega
      have hx0 : x = 0 := by omega
      have hy0 : y = 0 := by omega
      subst hx0 hy0
      simp [islandPush, addNeighbor, hsz]
    · have := length_islandPush b x y ([], (CellMap.new b.size).set (x, y) true)
      have h4 : 4 ≤ b.size * b.size := by nlinarith
      simp at this
      omega
  rw [getIslandLoop_foreign b _ _ _ _ _ _ hcol hlen]
  simp

/-! ## The node count of `generate_graph` on singleton-island boards -/

theorem length_edgeStep (map1 : List (Pos × Fin 256)) (new_id : Fin 256)
    (g : Graph) (pos : Pos) :
    (edgeStep map1 new_id g pos).nodes.length = g.nodes.length := by
  unfold edgeStep
  cases map1.lookup pos <;> simp [Graph.setNode]

theorem length_edgeFold (map1 : List (Pos × Fin 256)) (new_id : Fin 256) :
    ∀ (l : List Pos) (g : Graph),
    (l.foldl (edgeStep map1 new_id) g).nodes.length = g.nodes.length := by
  intro l
  induction l with
  | nil => intro g; rfl
  | cons p rest ih =>
    intro g
    rw [List.foldl_cons, ih, length_edgeStep]

theorem lookup_insertIsland (nid : Fin 256) :
    ∀ (isl : List Pos) (m : List (Pos × Fin 256)) (q : Pos),
    (isl.foldl (fun m pos => (pos, nid) :: m) m).lookup q =
      if q ∈ isl then some nid else m.lookup q := by
  intro isl
  induction isl with
  | nil => intro m q; simp
  | cons p rest ih =>
    intro m q
    rw [List.foldl_cons, ih]
    by_cases hq : q ∈ rest
    · simp [hq]
    · by_cases hqp : q = p
      · subst hqp
        simp [hq, List.lookup_cons]
      · have : (q == p) = false := by simpa using hqp
        simp [hq, hqp, List.lookup_cons, this]

theorem genStep_fresh (b : Board) (st : GenState) (p : Pos)
    (h : st.map.lookup p = none) (hisl : (get_island b p).1 = [p]) :
    (genStep b st p).g.nodes.length = st.g.nodes.length + 1 ∧
    (∀ q : Pos, (genStep b st p).map.lookup q =
      if q = p then
        some ⟨st.g.nodes.length % 256, Nat.mod_lt _ (by decide)⟩
      else st.map.lookup q) := by
  rw [genStep]
  rw [h]
  simp only [Option.isSome_none, Bool.false_eq_true, if_false, hisl]
  constructor
  · rw [length_edgeFold]
    simp
  · intro q
    rw [List.foldl_cons, List.foldl_nil]
    by_cases hqp : q = p
    · subst hqp
      simp [List.lookup_cons]
    · have : (q == p) = false := by simpa using hqp
      simp [List.lookup_cons, this, hqp]

theorem foldl_genStep_length (b : Board) (hb : SingletonIslands b) :
    ∀ (l : List Pos) (st : GenState),
    (∀ p ∈ l, InBounds b p) → l.Nodup →
    (∀ p ∈ l, st.map.lookup p = none) →
    (l.foldl (genStep b) st).g.nodes.length = st.g.nodes.length + l.length := by
  intro l
  induction l with
  | nil => intro st _ _ _; simp
  | cons p rest ih =>
    intro st hin hnd hnone
    rw [List.foldl_cons]
    obtain ⟨hlen1, hlook⟩ := genStep_fresh b st p (hnone p (by simp))
      (hb p (hin p (by simp)))
    have hrest : ∀ q ∈ rest, (genStep b st p).map.lookup q = none := by
      intro q hq
      rw [hlook q, if_neg (by
        intro hqp
        subst hqp
        exact (List.nodup_cons.mp hnd).1 hq)]
      exact hnone q (by simp [hq])
    rw [ih (genStep b st p) (fun q hq => hin q (by simp [hq]))
      (List.nodup_cons.mp hnd).2 hrest, hlen1]
    simp
    omega

theorem mem_cellOrder (n : Nat) (p : Pos) :
    p ∈ cellOrder n ↔ p.1 < n ∧ p.2 < n := by
  obtain ⟨x, y⟩ := p
  simp [cellOrder, List.mem_flatMap]

theorem nodup_cellOrder (n : Nat) : (cellOrder n).Nodup := by
  rw [cellOrder, List.nodup_flatMap]
  constructor
  · intro x _
    exact (List.nodup_range n).map (fun a b h => by simpa using h)
  · apply (List.nodup_range n).imp
    intro x u hxu
    intro q hq hq'
    obtain ⟨a, _, rfl⟩ := List.mem_map.mp hq
    obtain ⟨c, _, heq⟩ := List.mem_map.mp hq'
    injection heq with h1 _
    exact hxu h1.symm

theorem length_cellOrder (n : Nat) : (cellOrder n).length = n * n := by
  rw [cellOrder, List.length_flatMap]
  simp [Function.comp_def]

/-- On a board where every cell is its own island, `generate_graph` creates
exactly one node per cell. -/
theorem generate_graph_length (b : Board) (hb : SingletonIslands b) :
    (generate_graph b).nodes.length = b.size * b.size := by
  rw [generate_graph]
  rw [foldl_genStep_length b hb (cellOrder b.size)
    ⟨[], ⟨[]⟩⟩
    (fun p hp => (mem_cellOrder b.size p).mp hp)
    (nodup_cellOrder b.size)
    (fun p _ => rfl)]
  simp [length_cellOrder]

theorem checkerboard_singleton (s : Nat) : SingletonIslands (checkerboard s) :=
  fun p hp => get_island_singleton _ p hp
    (fun q hq hadj => checkerboard_neighbor_ne s p q hp hq hadj)

theorem checkerboard16_node_count :
    (generate_graph (checkerboard 16)).nodes.length = 256 := by
  rw [generate_graph_length _ (checkerboard_singleton 16)]
  decide

theorem checkerboard17_node_count :
    (generate_graph (checkerboard 17)).nodes.length = 289 := by
  rw [generate_graph_length _ (checkerboard_singleton 17)]
  decide

set_option maxRecDepth 40000 in
/-- The 16×16 checkerboard is a legitimate program value reachable through
the public `Board` API: start from `Board::uniform(16)` and write each cell
once through `IndexMut` (every write is in range, so the modelled panic is
never hit). -/
theorem checkerboard16_buildable :
    (cellOrder 16).foldlM
      (fun bd p => Board.set? bd p.1 p.2 (Color.new ((p.1 + p.2) % 2)))
      (Board.uniform 16) = some (checkerboard 16) := by
  decide

set_option maxRecDepth 40000 in
/-- The 17×17 checkerboard is likewise reachable through the public `Board`
API (`Board::uniform(17)` plus one in-range `IndexMut` write per cell). -/
theorem checkerboard17_buildable :
    (cellOrder 17).foldlM
      (fun bd p => Board.set? bd p.1 p.2 (Color.new ((p.1 + p.2) % 2)))
      (Board.uniform 17) = some (checkerboard 17) := by
  decide

/-! ## Divergence of `Exact::solve` at the 256-region capacity

`checkerboard 16` is a 16×16 board (the largest size the solver documents as
supported) with exactly 256 single-cell regions.  `Graph::len` casts the
node count to `u8`, so `256` becomes `0`: the `colored_nodes` sets are all
built empty, the candidate loop finds no color, no child state is ever
created, and the `for depth in 0..` loop runs forever. -/

theorem coloredNodes_of_len_zero (g : Graph) (h : g.len = 0) (c : Color) :
    coloredNodes g c = InlineBitSet.empty := by
  rw [coloredNodes, h]
  rfl

theorem adjColorsLoop_of_empty_cn (cn : Color → InlineBitSet)
    (hcn : ∀ c, cn c = InlineBitSet.empty) (st : State) :
    ∀ (l : List Nat) (acc : ColorSet), adjColorsLoop cn st l acc = acc := by
  intro l
  induction l with
  | nil => intro acc; rfl
  | cons color rest ih =>
    intro acc
    rw [adjColorsLoop, hcn]
    rw [InlineBitSet.count_common_elements_empty_right]
    simp only [Nat.lt_irrefl, and_false, if_false]
    exact ih acc

theorem expandStates_of_empty_cn (g : Graph) (cn : Color → InlineBitSet)
    (hcn : ∀ c, cn c = InlineBitSet.empty) :
    ∀ (sts acc : List State), expandStates g cn sts acc = .ok acc := by
  intro sts
  induction sts with
  | nil => intro acc; rfl
  | cons st rest ih =>
    intro acc
    rw [expandStates, adjColors, adjColorsLoop_of_empty_cn cn hcn,
      ColorSet.members_new]
    exact ih acc

theorem levelStep_of_empty_cn (g : Graph) (cn : Color → InlineBitSet)
    (hcn : ∀ c, cn c = InlineBitSet.empty) (states : List State) :
    levelStep g cn states = .ok [] := by
  rw [levelStep, expandStates_of_empty_cn g cn hcn]

theorem solveLoop_of_empty_cn (g : Graph) (cn : Color → InlineBitSet)
    (hcn : ∀ c, cn c = InlineBitSet.empty) :
    ∀ (fuel : Nat) (states : List State), solveLoop g cn fuel states = none := by
  intro fuel
  induction fuel with
  | zero => intro states; rfl
  | succ n ih =>
    intro states
    rw [solveLoop, levelStep_of_empty_cn g cn hcn]
    exact ih []

theorem checkerboard16_len_zero : (generate_graph (checkerboard 16)).len = 0 := by
  rw [Graph.len, checkerboard16_node_count]

set_option maxRecDepth 8000 in
theorem checkerboard16_not_drenched :
    (checkerboard 16).is_drenched = false := by decide

theorem checkerboard16_solve_none (fuel : Nat) :
    Exact.solve (checkerboard 16) fuel = none := by
  rw [Exact.solve, checkerboard16_not_drenched]
  simp only [Bool.false_eq_true, if_false]
  exact solveLoop_of_empty_cn _ _
    (coloredNodes_of_len_zero _ checkerboard16_len_zero) fuel _

/-! ## Claim theorems: capacity and index bugs -/

/-- Claim C1 (code bug): the claim promises a minimum-length solution for
every board whose island graph has at most 256 regions.  The 16×16
two-color checkerboard — a board of the documented maximal supported size —
has exactly 256 single-cell regions and is not uniform, yet `Exact::solve`
never returns any solution at all: the `as u8` cast in `Graph::len`
truncates the node count 256 to 0, the `colored_nodes` sets are built
empty, the candidate loop never selects a color, no child state is ever
generated, and the unbounded `for depth in 0..` loop runs forever (the
fuelled model returns `none` for every fuel). -/
theorem claimC1_no_minimal_solution_at_256_regions :
    (checkerboard 16).is_drenched = false ∧
    ∀ fuel : Nat, Exact.solve (checkerboard 16) fuel = none :=
  ⟨checkerboard16_not_drenched, checkerboard16_solve_none⟩

/-- Claim C2 (code bug): the claim promises that `solve` returns `Ok` for
every board with at most 256 regions.  On the 16×16 checkerboard (exactly
256 regions) `Exact::solve` diverges and never produces a success value,
so there is no returned solution to replay. -/
theorem claimC2_solve_never_returns_ok_at_256_regions :
    ∀ (fuel : Nat) (sol : List Color),
      Exact.solve (checkerboard 16) fuel ≠ some sol := by
  intro fuel sol h
  rw [checkerboard16_solve_none fuel] at h
  exact Option.noConfusion h

/-- Claim C3 (code bug): the claim requires a board reducing to more than
256 regions to be rejected with an error before any bounded bit-set use.
The code contains no such check: on the 17×17 checkerboard the builder
creates 289 nodes, and `Graph::len` silently truncates that count to
`289 % 256 = 33` through its `as u8` cast — ids wrap around instead of an
error being reported (neither `generate_graph` nor `Exact::solve` has any
error path). -/
theorem claimC3_capacity_violation_silently_truncated :
    (generate_graph (checkerboard 17)).nodes.length = 289 ∧
    (generate_graph (checkerboard 17)).len = 33 := by
  refine ⟨checkerboard17_node_count, ?_⟩
  rw [Graph.len, checkerboard17_node_count]

/-- Claim C8 (code bug): the claim asserts the search always terminates
with a solution on every well-formed board.  On the 16×16 checkerboard
(256 regions, within the documented capacity) the truncated node count
empties every per-color node set, so the level step never generates a
child nor a solution and the main breadth-first loop of `Exact::solve`
never terminates: `solveLoop` returns `none` for every fuel from the
initial state. -/
theorem claimC8_search_not_terminating_at_256_regions :
    (generate_graph (checkerboard 16)).nodes.length = 256 ∧
    ∀ fuel : Nat,
      solveLoop (generate_graph (checkerboard 16))
        (coloredNodes (generate_graph (checkerboard 16))) fuel
        [initState (generate_graph (checkerboard 16))] = none :=
  ⟨checkerboard16_node_count, fun fuel =>
    solveLoop_of_empty_cn _ _
      (coloredNodes_of_len_zero _ checkerboard16_len_zero) fuel _⟩

/-- A 2×2 board with four distinct cells, used to exhibit the off-by-one
bounds check of the board index operators. -/
def outOfRangeBoard : Board :=
  ⟨2, [Color.new 0, Color.new 1, Color.new 2, Color.new 3]⟩

/-- Claim C4 (code bug): the claim demands that indexing at `x ≥ size` or
`y ≥ size` panics.  The bounds check of both index operators tests
`x > size || y > size` instead of `>=`, so on a 2×2 board the out-of-range
coordinate `(2, 0)` slips through: reading yields the cell stored at
row-major index `2` — the cell at in-range coordinate `(0, 1)` — and
writing silently overwrites that same cell, instead of panicking (`none`). -/
theorem claimC4_out_of_range_index_does_not_panic :
    outOfRangeBoard.get? 2 0 = some (Color.new 2) ∧
    outOfRangeBoard.set? 2 0 (Color.new 5) =
      some ⟨2, [Color.new 0, Color.new 1, Color.new 5, Color.new 3]⟩ := by
  decide

/-- Claim C5 (code bug): `count_elements_only_in_first(a, b)` is meant to
count the elements of `a` not in `b`, but its word update reads
`a ^ (b & b)` — i.e. `a ^ b`, the symmetric difference — instead of
`a ^ (a & b)`.  For `A = ∅`, `B = {0}` the number of elements only in `A`
is `0` (`A` has no members at all), yet the function returns `1`. -/
theorem claimC5_count_only_in_first_counts_symmetric_difference :
    InlineBitSet.count_elements_only_in_first InlineBitSet.empty
      InlineBitSet.with_only_first = 1 ∧
    ∀ q : Fin 256, InlineBitSet.empty.contains q = false := by
  constructor
  · decide
  · intro q
    exact InlineBitSet.contains_empty q

/-! ## Correctness of the `field_coords` flood fill -/

theorem mem_if_singleton {c : Prop} [Decidable c] (p q : Pos) :
    (q ∈ if c then [p] else []) ↔ c ∧ q = p := by
  split_ifs with h <;> simp [h]

theorem mem_pushNeighbors (b : Board) (x y : Nat) (stack : List Pos) (q : Pos) :
    q ∈ Board.pushNeighbors b x y stack ↔
    (q = (x, y + 1) ∧ y < b.size - 1) ∨ (q = (x + 1, y) ∧ x < b.size - 1) ∨
    (q = (x, y - 1) ∧ 0 < y) ∨ (q = (x - 1, y) ∧ 0 < x) ∨ q ∈ stack := by
  unfold Board.pushNeighbors
  simp only [List.mem_append, mem_if_singleton]
  tauto

theorem length_pushNeighbors (b : Board) (x y : Nat) (stack : List Pos) :
    (Board.pushNeighbors b x y stack).length ≤ stack.length + 4 := by
  unfold Board.pushNeighbors
  split_ifs <;> simp

theorem stack_subset_pushNeighbors (b : Board) (x y : Nat) (stack : List Pos)
    (q : Pos) (hq : q ∈ stack) : q ∈ Board.pushNeighbors b x y stack := by
  rw [mem_pushNeighbors]
  tauto

theorem adj_mem_pushNeighbors (b : Board) (hsz : 0 < b.size) (x y : Nat)
    (stack : List Pos) (q : Pos) (hq : InBounds b q)
    (hadj : GridAdj (x, y) q) : q ∈ Board.pushNeighbors b x y stack := by
  obtain ⟨qx, qy⟩ := q
  obtain ⟨hqx, hqy⟩ := hq
  rw [mem_pushNeighbors]
  rcases hadj with ⟨h1, h2 | h2⟩ | ⟨h1, h2 | h2⟩
  · have e1 : x = qx := h1
    have e2 : y = qy + 1 := h2
    right; right; left
    simp only [Prod.mk.injEq]
    omega
  · have e1 : x = qx := h1
    have e2 : qy = y + 1 := h2
    left
    simp only [Prod.mk.injEq]
    omega
  · have e1 : y = qy := h1
    have e2 : x = qx + 1 := h2
    right; right; right; left
    simp only [Prod.mk.injEq]
    omega
  · have e1 : y = qy := h1
    have e2 : qx = x + 1 := h2
    right; left
    simp only [Prod.mk.injEq]
    omega

theorem InRegion.step (b : Board) {v q : Pos} (hv : InRegion b v)
    (hq : InBounds b q) (hadj : GridAdj v q)
    (hc : b.colorAt q.1 q.2 = b.colorAt 0 0) : InRegion b q :=
  Relation.ReflTransGen.tail hv ⟨hq, hadj, hc⟩

theorem nodup_inbounds_length_le (b : Board) (l : List Pos) (hnd : l.Nodup)
    (hin : ∀ p ∈ l, InBounds b p) : l.length ≤ b.size * b.size := by
  classical
  rw [← List.toFinset_card_of_nodup hnd]
  have hsub : l.toFinset ⊆ Finset.range b.size ×ˢ Finset.range b.size := by
    intro p hp
    obtain ⟨h1, h2⟩ := hin p (List.mem_toFinset.mp hp)
    rw [Finset.mem_product, Finset.mem_range, Finset.mem_range]
    exact ⟨h1, h2⟩
  calc l.toFinset.card ≤ (Finset.range b.size ×ˢ Finset.range b.size).card :=
        Finset.card_le_card hsub
    _ = b.size * b.size := by rw [Finset.card_product, Finset.card_range]

/-- The loop invariant of `fieldCoordsLoop`: soundness of the accumulated
region and border cells, candidate facts for the stack cells, closure of the
visited set up to the stack, and progress of the anchor. -/
structure FloodInv (b : Board) (stack visited border : List Pos) : Prop where
  hvis : ∀ p ∈ visited,
    InRegion b p ∧ b.colorAt p.1 p.2 = b.colorAt 0 0 ∧ InBounds b p
  hnd : visited.Nodup
  hstk : ∀ p ∈ stack, InBounds b p ∧ (p = (0, 0) ∨ ∃ v ∈ visited, GridAdj v p)
  hbor : ∀ q ∈ border, InBounds b q ∧ b.colorAt q.1 q.2 ≠ b.colorAt 0 0 ∧
    ∃ v ∈ visited, GridAdj v q
  hcloseR : ∀ v ∈ visited, ∀ q, InBounds b q → GridAdj v q →
    b.colorAt q.1 q.2 = b.colorAt 0 0 → q ∈ visited ∨ q ∈ stack
  hcloseB : ∀ v ∈ visited, ∀ q, InBounds b q → GridAdj v q →
    b.colorAt q.1 q.2 ≠ b.colorAt 0 0 → q ∈ border ∨ q ∈ stack
  hzero : (0, 0) ∈ visited ∨ (0, 0) ∈ stack

theorem floodInv_skip (b : Board) (x y : Nat)
    (rest visited border : List Pos)
    (hInv : FloodInv b ((x, y) :: rest) visited border)
    (hv : (x, y) ∈ visited) : FloodInv b rest visited border := by
  obtain ⟨hvis, hnd, hstk, hbor, hcloseR, hcloseB, hzero⟩ := hInv
  refine ⟨hvis, hnd, fun p hp => hstk p (by simp [hp]), hbor, ?_, ?_, ?_⟩
  · intro v hv' q hq hadj hcq
    rcases hcloseR v hv' q hq hadj hcq with h | h
    · exact Or.inl h
    · rcases List.mem_cons.mp h with rfl | h
      · exact Or.inl hv
      · exact Or.inr h
  · intro v hv' q hq hadj hcq
    rcases hcloseB v hv' q hq hadj hcq with h | h
    · exact Or.inl h
    · rcases List.mem_cons.mp h with rfl | h
      · exact absurd (hvis _ hv).2.1 hcq
      · exact Or.inr h
  · rcases hzero with h | h
    · exact Or.inl h
    · rcases List.mem_cons.mp h with heq | h
      · exact Or.inl (heq ▸ hv)
      · exact Or.inr h

theorem floodInv_region (b : Board) (hsz : 0 < b.size) (x y : Nat)
    (rest visited border : List Pos)
    (hInv : FloodInv b ((x, y) :: rest) visited border)
    (hv : (x, y) ∉ visited) (hc : b.colorAt x y = b.colorAt 0 0) :
    FloodInv b (Board.pushNeighbors b x y rest) (visited ++ [(x, y)]) border := by
  obtain ⟨hvis, hnd, hstk, hbor, hcloseR, hcloseB, hzero⟩ := hInv
  have hpin : InBounds b (x, y) := (hstk _ (by simp)).1
  have hx : x < b.size := hpin.1
  have hy : y < b.size := hpin.2
  have hreg : InRegion b (x, y) := by
    rcases (hstk (x, y) (by simp)).2 with h0 | ⟨v, hvv, hadj⟩
    · rw [h0]
      exact Relation.ReflTransGen.refl
    · exact InRegion.step b (hvis v hvv).1 hpin hadj hc
  have hmemv : (x, y) ∈ visited ++ [(x, y)] := by simp
  refine ⟨?_, ?_, ?_, ?_, ?_, ?_, ?_⟩
  · intro p hp
    rcases List.mem_append.mp hp with hp | hp
    · exact hvis p hp
    · rw [List.mem_singleton.mp hp]
      exact ⟨hreg, hc, hpin⟩
  · rw [List.nodup_append]
    exact ⟨hnd, List.nodup_singleton _, by
      intro a ha ha'
      rw [List.mem_singleton.mp ha'] at ha
      exact hv ha⟩
  · intro p hp
    rcases (mem_pushNeighbors b x y rest p).mp hp with
      ⟨rfl, hb⟩ | ⟨rfl, hb⟩ | ⟨rfl, hb⟩ | ⟨rfl, hb⟩ | hp
    · exact ⟨⟨hx, by omega⟩, Or.inr ⟨(x, y), hmemv, Or.inl ⟨rfl, Or.inr rfl⟩⟩⟩
    · exact ⟨⟨by omega, hy⟩, Or.inr ⟨(x, y), hmemv, Or.inr ⟨rfl, Or.inr rfl⟩⟩⟩
    · exact ⟨⟨hx, by omega⟩,
        Or.inr ⟨(x, y), hmemv, Or.inl ⟨rfl, Or.inl (by omega)⟩⟩⟩
    · exact ⟨⟨by omega, hy⟩,
        Or.inr ⟨(x, y), hmemv, Or.inr ⟨rfl, Or.inl (by omega)⟩⟩⟩
    · obtain ⟨hinb, h0⟩ := hstk p (by simp [hp])
      refine ⟨hinb, ?_⟩
      rcases h0 with h0 | ⟨v, hvv, hadj⟩
      · exact Or.inl h0
      · exact Or.inr ⟨v, by simp [hvv], hadj⟩
  · intro q hq
    obtain ⟨h1, h2, v, hvv, hadj⟩ := hbor q hq
    exact ⟨h1, h2, v, by simp [hvv], hadj⟩
  · intro v hv' q hq hadj hcq
    rcases List.mem_append.mp hv' with hv' | hv'
    · rcases hcloseR v hv' q hq hadj hcq with h | h
      · exact Or.inl (by simp [h])
      · rcases List.mem_cons.mp h with rfl | h
        · exact Or.inl hmemv
        · exact Or.inr (stack_subset_pushNeighbors b x y rest q h)
    · rw [List.mem_singleton.mp hv'] at hadj
      exact Or.inr (adj_mem_pushNeighbors b hsz x y rest q hq hadj)
  · intro v hv' q hq hadj hcq
    rcases List.mem_append.mp hv' with hv' | hv'
    · rcases hcloseB v hv' q hq hadj hcq with h | h
      · exact Or.inl h
      · rcases List.mem_cons.mp h with rfl | h
        · exact absurd hc hcq
        · exact Or.inr (stack_subset_pushNeighbors b x y rest q h)
    · rw [List.mem_singleton.mp hv'] at hadj
      exact Or.inr (adj_mem_pushNeighbors b hsz x y rest q hq hadj)
  · rcases hzero with h | h
    · exact Or.inl (List.mem_append.mpr (Or.inl h))
    · rcases List.mem_cons.mp h with heq | h
      · exact Or.inl (heq ▸ hmemv)
      · exact Or.inr (stack_subset_pushNeighbors b x y rest _ h)

theorem floodInv_border (b : Board) (x y : Nat)
    (rest visited border : List Pos)
    (hInv : FloodInv b ((x, y) :: rest) visited border)
    (hc : ¬ b.colorAt x y = b.colorAt 0 0) :
    FloodInv b rest visited (border ++ [(x, y)]) := by
  obtain ⟨hvis, hnd, hstk, hbor, hcloseR, hcloseB, hzero⟩ := hInv
  have hne0 : (x, y) ≠ ((0, 0) : Pos) := by
    intro h0
    injection h0 with e1 e2
    subst e1 e2
    exact hc rfl
  refine ⟨hvis, hnd, fun p hp => hstk p (by simp [hp]), ?_, ?_, ?_, ?_⟩
  · intro q hq
    rcases List.mem_append.mp hq with hq | hq
    · exact hbor q hq
    · rw [List.mem_singleton.mp hq]
      obtain ⟨hinb, h0⟩ := hstk (x, y) (by simp)
      rcases h0 with h0 | hex
      · exact absurd h0 hne0
      · exact ⟨hinb, hc, hex⟩
  · intro v hv' q hq hadj hcq
    rcases hcloseR v hv' q hq hadj hcq with h | h
    · exact Or.inl h
    · rcases List.mem_cons.mp h with rfl | h
      · exact absurd hcq hc
      · exact Or.inr h
  · intro v hv' q hq hadj hcq
    rcases hcloseB v hv' q hq hadj hcq with h | h
    · exact Or.inl (by simp [h])
    · rcases List.mem_cons.mp h with rfl | h
      · exact Or.inl (by simp)
      · exact Or.inr h
  · rcases hzero with h | h
    · exact Or.inl h
    · rcases List.mem_cons.mp h with heq | h
      · exact absurd heq.symm hne0
      · exact Or.inr h

/-- Running the flood-fill loop from any state satisfying the invariant,
with fuel above the standard termination measure, reaches the empty stack
and yields a final state that still satisfies the invariant. -/
theorem fieldCoordsLoop_spec (b : Board) (hsz : 0 < b.size) :
    ∀ (fuel : Nat) (stack visited border : List Pos),
    FloodInv b stack visited border →
    5 * (b.size * b.size - visited.length) + stack.length < fuel →
    ∃ V B, Board.fieldCoordsLoop b fuel stack visited border = (V, B) ∧
      FloodInv b [] V B := by
  intro fuel
  induction fuel with
  | zero =>
    intro stack visited border _ hm
    exact absurd hm (Nat.not_lt_zero _)
  | succ n ih =>
    intro stack visited border hInv hm
    match stack with
    | [] => exact ⟨visited, border, rfl, hInv⟩
    | (x, y) :: rest =>
      rw [Board.fieldCoordsLoop]
      by_cases hv : (x, y) ∈ visited
      · rw [if_pos hv]
        apply ih rest visited border (floodInv_skip b x y rest visited border hInv hv)
        simp at hm
        omega
      · rw [if_neg hv]
        by_cases hc : b.colorAt x y = b.colorAt 0 0
        · rw [if_pos hc]
          have hInv' := floodInv_region b hsz x y rest visited border hInv hv hc
          apply ih _ _ _ hInv'
          have hlenv : (visited ++ [(x, y)]).length ≤ b.size * b.size :=
            nodup_inbounds_length_le b _ hInv'.hnd
              (fun p hp => (hInv'.hvis p hp).2.2)
          have hpush := length_pushNeighbors b x y rest
          simp at hm hlenv ⊢
          omega
        · rw [if_neg hc]
          apply ih rest visited (border ++ [(x, y)])
            (floodInv_border b x y rest visited border hInv hc)
          simp at hm
          omega

/-- With the invariant finished (empty stack), the visited list contains
every cell of the anchor region. -/
theorem region_subset_final (b : Board) (V B : List Pos)
    (hInv : FloodInv b [] V B) : ∀ p, InRegion b p → p ∈ V := by
  intro p hp
  induction hp with
  | refl =>
    rcases hInv.hzero with h | h
    · exact h
    · exact absurd h (List.not_mem_nil _)
  | tail hpath hstep ih =>
    obtain ⟨hqb, hadj, hcq⟩ := hstep
    rcases hInv.hcloseR _ ih _ hqb hadj hcq with h | h
    · exact h
    · exact absurd h (List.not_mem_nil _)

/-- Full functional specification of `Board::field_coords` on boards of
positive size: the first list enumerates the anchor region without
duplicates, and the second list contains exactly the border cells (possibly
with duplicates); the two are disjoint. -/
theorem field_coords_spec (b : Board) (hsz : 0 < b.size) :
    (b.field_coords).1.Nodup ∧
    (∀ p, p ∈ (b.field_coords).1 ↔ InRegion b p) ∧
    (∀ q, q ∈ (b.field_coords).2 ↔ InBorder b q) ∧
    (∀ p, p ∈ (b.field_coords).1 → p ∉ (b.field_coords).2) := by
  have hInv0 : FloodInv b [(0, 0)] [] [] := by
    refine ⟨by simp, List.nodup_nil, ?_, by simp, by simp, by simp, by simp⟩
    intro p hp
    rw [List.mem_singleton.mp hp]
    exact ⟨⟨hsz, hsz⟩, Or.inl rfl⟩
  obtain ⟨V, B, heq, hInv⟩ := fieldCoordsLoop_spec b hsz
    (5 * b.size * b.size + 2) [(0, 0)] [] [] hInv0 (by
      have h1 : b.size * b.size - 0 = b.size * b.size := by omega
      have h2 : 5 * b.size * b.size = 5 * (b.size * b.size) := by ring
      simp [h1]
      omega)
  rw [Board.field_coords, heq]
  refine ⟨hInv.hnd, ?_, ?_, ?_⟩
  · intro p
    constructor
    · intro hp
      exact (hInv.hvis p hp).1
    · exact region_subset_final b V B hInv p
  · intro q
    constructor
    · intro hq
      obtain ⟨h1, h2, v, hvv, hadj⟩ := hInv.hbor q hq
      exact ⟨h1, h2, v, (hInv.hvis v hvv).1, hadj⟩
    · rintro ⟨h1, h2, r, hr, hadj⟩
      have hrV : r ∈ V := region_subset_final b V B hInv r hr
      rcases hInv.hcloseB r hrV q h1 hadj h2 with h | h
      · exact h
      · exact absurd h (List.not_mem_nil _)
  · intro p hp hpB
    have h1 := (hInv.hvis p hp).2.1
    have h2 := (hInv.hbor p hpB).2.1
    exact h2 h1

/-- Concrete 2×2 board `[[A, A], [A, B]]`: three cells of color 0 around one
cell of color 1 at `(1, 1)`. -/
def borderDupBoard : Board :=
  ⟨2, [Color.new 0, Color.new 0, Color.new 0, Color.new 1]⟩

/-- Claim C6 counterexample: on `[[A, A], [A, B]]` the border cell `(1, 1)`
is adjacent to the region through two different cells and is pushed twice,
so `field_coords` returns it twice — the border list is not duplicate-free. -/
theorem claimC6_counterexample_border_duplicates :
    (borderDupBoard.field_coords).2 = [(1, 1), (1, 1)] ∧
    ¬ (borderDupBoard.field_coords).2.Nodup := by decide

/-- Claim C6 (amended): for every board of positive size, `field_coords`
returns two disjoint coordinate lists; the first is duplicate-free and is
exactly the 4-connected same-color region of `(0, 0)`, and the second,
viewed as a set, is exactly the set of differently-colored cells adjacent
to that region, independently of traversal order — but the second list may
contain duplicates (the claim's duplicate-freeness fails for it, see the
counterexample). -/
theorem claimC6_field_coords_sets (b : Board) (hsz : 0 < b.size) :
    (b.field_coords).1.Nodup ∧
    (∀ p, p ∈ (b.field_coords).1 ↔ InRegion b p) ∧
    (∀ q, q ∈ (b.field_coords).2 ↔ InBorder b q) ∧
    (∀ p, p ∈ (b.field_coords).1 → p ∉ (b.field_coords).2) :=
  field_coords_spec b hsz

/-- Witness for claim C6's amended theorem at the concrete board. -/
theorem claimC6_field_coords_sets_witness :
    0 < borderDupBoard.size ∧
    ((borderDupBoard.field_coords).1.Nodup ∧
    (∀ p, p ∈ (borderDupBoard.field_coords).1 ↔ InRegion borderDupBoard p) ∧
    (∀ q, q ∈ (borderDupBoard.field_coords).2 ↔ InBorder borderDupBoard q) ∧
    (∀ p, p ∈ (borderDupBoard.field_coords).1 →
      p ∉ (borderDupBoard.field_coords).2)) :=
  ⟨by decide, claimC6_field_coords_sets borderDupBoard (by decide)⟩

/-! ## The effect of `Board::drench` -/

theorem idx_lt (s x y : Nat) (hx : x < s) (hy : y < s) : y * s + x < s * s := by
  nlinarith

theorem InRegion.inBounds (b : Board) (hsz : 0 < b.size) {p : Pos}
    (hp : InRegion b p) : InBounds b p := by
  induction hp with
  | refl => exact ⟨hsz, hsz⟩
  | tail _ hstep _ => exact hstep.1

theorem drench_fold (c : Color) :
    ∀ (ps : List Pos) (b : Board),
    b.cells.length = b.size * b.size →
    (∀ p ∈ ps, InBounds b p) →
    ∃ b', ps.foldlM (fun b'' p => b''.set? p.1 p.2 c) b = some b' ∧
      b'.size = b.size ∧ b'.cells.length = b.cells.length ∧
      (∀ i, i < b.cells.length →
        b'.cells[i]? = if ∃ p ∈ ps, p.2 * b.size + p.1 = i
          then some c else b.cells[i]?) := by
  intro ps
  induction ps with
  | nil =>
    intro b hlen hin
    refine ⟨b, rfl, rfl, rfl, ?_⟩
    intro i _
    simp
  | cons p rest ih =>
    intro b hlen hin
    obtain ⟨hpx, hpy⟩ := hin p (by simp)
    have hidx : p.2 * b.size + p.1 < b.cells.length := by
      rw [hlen]
      exact idx_lt b.size p.1 p.2 hpx hpy
    have hset : b.set? p.1 p.2 c =
        some { b with cells := b.cells.set (p.2 * b.size + p.1) c } := by
      rw [Board.set?, if_neg (by omega), if_pos hidx]
    set b1 : Board := { b with cells := b.cells.set (p.2 * b.size + p.1) c }
      with hb1
    have hlen1 : b1.cells.length = b1.size * b1.size := by
      simp [hb1, hlen]
    have hin1 : ∀ q ∈ rest, InBounds b1 q := by
      intro q hq
      exact hin q (by simp [hq])
    obtain ⟨b', hfold, hsize, hlen2, hform⟩ := ih b1 hlen1 hin1
    refine ⟨b', ?_, by simpa using hsize, by simpa using hlen2, ?_⟩
    · rw [List.foldlM_cons, hset]
      exact hfold
    · intro i hi
      have hi1 : i < b1.cells.length := by simpa using hi
      rw [hform i hi1]
      have hb1i : b1.cells[i]? =
          if p.2 * b.size + p.1 = i then some c else b.cells[i]? := by
        rw [hb1]
        simp only [List.getElem?_set]
        by_cases hpi : p.2 * b.size + p.1 = i
        · rw [if_pos hpi, if_pos hpi, if_pos (hpi ▸ hidx)]
        · rw [if_neg hpi, if_neg hpi]
      by_cases hex : ∃ q ∈ rest, q.2 * b.size + q.1 = i
      · rw [if_pos (by simpa using hex), if_pos (by
          obtain ⟨q, hq, hqi⟩ := hex
          exact ⟨q, by simp [hq], hqi⟩)]
      · rw [if_neg (by simpa using hex), hb1i]
        by_cases hpi : p.2 * b.size + p.1 = i
        · rw [if_pos hpi, if_pos ⟨p, by simp, hpi⟩]
        · rw [if_neg hpi, if_neg (by
            rintro ⟨q, hq, hqi⟩
            rcases List.mem_cons.mp hq with rfl | hq
            · exact hpi hqi
            · exact hex ⟨q, hq, hqi⟩)]

theorem idx_inj (s x y u v : Nat) (hx : x < s) (hu : u < s)
    (h : v * s + u = y * s + x) : u = x ∧ v = y := by
  have hs : 0 < s := by omega
  have e1 : u = x := by
    have h1 : (v * s + u) % s = (y * s + x) % s := by rw [h]
    rw [Nat.add_comm (v * s) u, Nat.add_comm (y * s) x,
      Nat.add_mul_mod_self_right, Nat.add_mul_mod_self_right,
      Nat.mod_eq_of_lt hx, Nat.mod_eq_of_lt hu] at h1
    exact h1
  refine ⟨e1, ?_⟩
  have e2 : v * s = y * s := by omega
  exact Nat.eq_of_mul_eq_mul_right hs e2

/-- Claim C10: `drench` is a no-op when the anchor already has the chosen
color; otherwise it recolors exactly the cells of the 4-connected
same-color region of `(0, 0)` (computed under the pre-move colors) to the
chosen color, leaving the size and every other cell unchanged. -/
theorem claimC10_drench_recolors_exactly_the_region (b : Board) (c : Color)
    (hsz : 0 < b.size) (hlen : b.cells.length = b.size * b.size) :
    (c = b.colorAt 0 0 → b.drench c = some b) ∧
    (c ≠ b.colorAt 0 0 →
      ∃ b', b.drench c = some b' ∧ b'.size = b.size ∧
        ∀ x y, x < b.size → y < b.size →
          (InRegion b (x, y) → b'.colorAt x y = c) ∧
          (¬ InRegion b (x, y) → b'.colorAt x y = b.colorAt x y)) := by
  obtain ⟨hnd, hiffV, hiffB, hdisj⟩ := field_coords_spec b hsz
  constructor
  · intro hco
    rw [Board.drench, if_neg (by simp [hco])]
  · intro hco
    rw [Board.drench, if_pos hco]
    have hinV : ∀ p ∈ (b.field_coords).1, InBounds b p := by
      intro p hp
      exact InRegion.inBounds b hsz ((hiffV p).mp hp)
    obtain ⟨b', hfold, hsize, hlen2, hform⟩ :=
      drench_fold c (b.field_coords).1 b hlen hinV
    refine ⟨b', hfold, hsize, ?_⟩
    intro x y hx hy
    have hi : y * b.size + x < b.cells.length := by
      rw [hlen]
      exact idx_lt b.size x y hx hy
    have hget' : b'.colorAt x y =
        (b'.cells[y * b.size + x]?).getD (Color.new 0) := by
      rw [Board.colorAt, Board.get?, hsize, if_neg (by omega)]
    have hget : b.colorAt x y =
        (b.cells[y * b.size + x]?).getD (Color.new 0) := by
      rw [Board.colorAt, Board.get?, if_neg (by omega)]
    have hmem : (∃ p ∈ (b.field_coords).1, p.2 * b.size + p.1 = y * b.size + x)
        ↔ InRegion b (x, y) := by
      constructor
      · rintro ⟨p, hp, hpi⟩
        obtain ⟨hpx, hpy⟩ := hinV p hp
        obtain ⟨e1, e2⟩ := idx_inj b.size x y p.1 p.2 hx hpx hpi
        have hpe : p = (x, y) := by
          obtain ⟨px, py⟩ := p
          simp only [Prod.mk.injEq]
          exact ⟨e1, e2⟩
        exact (hiffV (x, y)).mp (hpe ▸ hp)
      · intro hreg
        exact ⟨(x, y), (hiffV (x, y)).mpr hreg, rfl⟩
    constructor
    · intro hreg
      rw [hget', hform _ hi, if_pos (hmem.mpr hreg)]
      rfl
    · intro hreg
      rw [hget', hform _ hi, if_neg (fun h => hreg (hmem.mp h)), hget]

/-- Witness for claim C10's theorem at a concrete board and color. -/
theorem claimC10_drench_witness :
    (0 < borderDupBoard.size ∧
      borderDupBoard.cells.length =
        borderDupBoard.size * borderDupBoard.size) ∧
    ((Color.new 1 = borderDupBoard.colorAt 0 0 →
        borderDupBoard.drench (Color.new 1) = some borderDupBoard) ∧
      (Color.new 1 ≠ borderDupBoard.colorAt 0 0 →
        ∃ b', borderDupBoard.drench (Color.new 1) = some b' ∧
          b'.size = borderDupBoard.size ∧
          ∀ x y, x < borderDupBoard.size → y < borderDupBoard.size →
            (InRegion borderDupBoard (x, y) →
              b'.colorAt x y = Color.new 1) ∧
            (¬ InRegion borderDupBoard (x, y) →
              b'.colorAt x y = borderDupBoard.colorAt x y))) :=
  ⟨⟨by decide, by decide⟩,
    claimC10_drench_recolors_exactly_the_region borderDupBoard (Color.new 1)
      (by decide) (by decide)⟩

/-! ## Cardinality of `InlineBitSet` and the bit-set laws (claim C7) -/

namespace InlineBitSet

theorem countOnesAux_eq_card (k : Nat) :
    ∀ n : Nat, n < 2 ^ k →
    countOnesAux k n =
      ((Finset.range k).filter (fun j => n.testBit j = true)).card := by
  induction k with
  | zero =>
    intro n hn
    interval_cases n
    simp [countOnesAux]
  | succ k ih =>
    intro n hn
    by_cases h0 : n = 0
    · subst h0
      simp [countOnesAux, Nat.zero_testBit]
    · rw [countOnesAux, if_neg h0]
      have hdiv : n / 2 < 2 ^ k := by
        rw [Nat.div_lt_iff_lt_mul (by omega)]
        rw [Nat.pow_succ] at hn
        exact hn
      rw [ih (n / 2) hdiv]
      rw [Finset.card_filter, Finset.card_filter, Finset.sum_range_succ']
      have hsucc : ∀ j, (if n.testBit (j + 1) = true then 1 else 0) =
          (if (n / 2).testBit j = true then 1 else 0) := by
        intro j
        rw [Nat.testBit_succ]
      have hzero : (if n.testBit 0 = true then 1 else 0) = n % 2 := by
        rw [Nat.testBit_zero]
        rcases Nat.mod_two_eq_zero_or_one n with h | h <;> simp [h]
      rw [hzero, Finset.sum_congr rfl (fun j _ => hsucc j)]

theorem countOnes_eq_card (n : Nat) (hn : n < 2 ^ 64) :
    countOnes n = ((Finset.range 64).filter (fun j => n.testBit j = true)).card :=
  countOnesAux_eq_card 64 n hn

theorem lenSum_eq_card (s : InlineBitSet) (hWf : s.Wf) :
    countOnes s.d0 + countOnes s.d1 + countOnes s.d2 + countOnes s.d3 =
      s.toFinset.card := by
  obtain ⟨h0, h1, h2, h3⟩ := hWf
  have hcard : s.toFinset.card =
      ∑ i ∈ Finset.range 256,
        (if (s.word (i / 64)).testBit (i % 64) = true then 1 else 0) := by
    rw [toFinset, Finset.card_filter]
    rw [← Fin.sum_univ_eq_sum_range
      (fun i => if (s.word (i / 64)).testBit (i % 64) = true then 1 else 0) 256]
    apply Finset.sum_congr rfl
    intro q _
    rw [contains_eq_testBit]
  rw [hcard]
  have hchunk : ∀ a w, s.word a = w → w < 2 ^ 64 →
      ∑ i ∈ Finset.Ico (64 * a) (64 * a + 64),
        (if (s.word (i / 64)).testBit (i % 64) = true then 1 else 0) =
      countOnes w := by
    intro a w hw hwlt
    rw [Finset.sum_Ico_eq_sum_range]
    have heq : ∀ i ∈ Finset.range (64 * a + 64 - 64 * a),
        (if (s.word ((64 * a + i) / 64)).testBit ((64 * a + i) % 64) = true
          then 1 else 0) =
        (if w.testBit i = true then 1 else 0) := by
      intro i hi
      rw [Finset.mem_range] at hi
      have hi64 : i < 64 := by omega
      have hd : (64 * a + i) / 64 = a := by
        rw [Nat.mul_comm, Nat.add_comm, Nat.add_mul_div_right _ _ (by omega : (0:Nat) < 64),
          Nat.div_eq_of_lt hi64]
        omega
      have hm : (64 * a + i) % 64 = i := by
        rw [Nat.mul_comm, Nat.add_comm, Nat.add_mul_mod_self_right,
          Nat.mod_eq_of_lt hi64]
      rw [hd, hm, hw]
    rw [Finset.sum_congr rfl heq, countOnes_eq_card w hwlt,
      Finset.card_filter]
    have h64 : 64 * a + 64 - 64 * a = 64 := by omega
    rw [h64]
  have e0 := hchunk 0 s.d0 rfl h0
  have e1 := hchunk 1 s.d1 rfl h1
  have e2 := hchunk 2 s.d2 rfl h2
  have e3 := hchunk 3 s.d3 rfl h3
  simp only [Nat.mul_zero, Nat.mul_one, Nat.zero_add] at e0 e1 e2 e3
  have hsplit :
      ∑ i ∈ Finset.range 256,
        (if (s.word (i / 64)).testBit (i % 64) = true then 1 else 0) =
      ∑ i ∈ Finset.Ico 0 64,
        (if (s.word (i / 64)).testBit (i % 64) = true then 1 else 0) +
      ∑ i ∈ Finset.Ico 64 128,
        (if (s.word (i / 64)).testBit (i % 64) = true then 1 else 0) +
      ∑ i ∈ Finset.Ico 128 192,
        (if (s.word (i / 64)).testBit (i % 64) = true then 1 else 0) +
      ∑ i ∈ Finset.Ico 192 256,
        (if (s.word (i / 64)).testBit (i % 64) = true then 1 else 0) := by
    rw [Finset.range_eq_Ico]
    rw [← Finset.sum_Ico_consecutive _ (by omega : (0:Nat) ≤ 64)
      (by omega : (64:Nat) ≤ 256)]
    rw [← Finset.sum_Ico_consecutive _ (by omega : (64:Nat) ≤ 128)
      (by omega : (128:Nat) ≤ 256)]
    rw [← Finset.sum_Ico_consecutive _ (by omega : (128:Nat) ≤ 192)
      (by omega : (192:Nat) ≤ 256)]
    ring
  rw [hsplit]
  have g0 : (64 : Nat) = 64 * 0 + 64 := by omega
  have g1a : (64 : Nat) = 64 * 1 := by omega
  have g1b : (128 : Nat) = 64 * 1 + 64 := by omega
  have g2a : (128 : Nat) = 64 * 2 := by omega
  have g2b : (192 : Nat) = 64 * 2 + 64 := by omega
  have g3a : (192 : Nat) = 64 * 3 := by omega
  have g3b : (256 : Nat) = 64 * 3 + 64 := by omega
  rw [show Finset.Ico 0 64 = Finset.Ico (64 * 0) (64 * 0 + 64) by norm_num,
    show Finset.Ico 64 128 = Finset.Ico (64 * 1) (64 * 1 + 64) by norm_num,
    show Finset.Ico 128 192 = Finset.Ico (64 * 2) (64 * 2 + 64) by norm_num,
    show Finset.Ico 192 256 = Finset.Ico (64 * 3) (64 * 3 + 64) by norm_num]
  rw [hchunk 0 s.d0 rfl h0, hchunk 1 s.d1 rfl h1, hchunk 2 s.d2 rfl h2,
    hchunk 3 s.d3 rfl h3]

theorem countOnesAux_le (k : Nat) : ∀ n : Nat, countOnesAux k n ≤ k := by
  induction k with
  | zero => intro n; simp [countOnesAux]
  | succ k ih =>
    intro n
    simp only [countOnesAux]
    split
    · omega
    · have h1 := ih (n / 2)
      have h2 : n % 2 < 2 := Nat.mod_lt _ (by omega)
      omega

theorem countOnes_le (n : Nat) : countOnes n ≤ 64 := countOnesAux_le 64 n

/-- The wrapping `u8` length fold equals the plain popcount sum modulo
`2^8` (every intermediate sum stays below `256`, so only the last addition
can wrap). -/
theorem len_eq_sum_mod (s : InlineBitSet) :
    s.len =
      (countOnes s.d0 + countOnes s.d1 + countOnes s.d2 + countOnes s.d3) %
        256 := by
  have b0 := countOnes_le s.d0
  have b1 := countOnes_le s.d1
  have b2 := countOnes_le s.d2
  have b3 := countOnes_le s.d3
  simp only [len, List.foldl_cons, List.foldl_nil]
  omega

/-- `len` is the member-set cardinality reduced modulo `2^8`: `0` instead of
`256` at the full set. -/
theorem len_eq_card_mod (s : InlineBitSet) (hWf : s.Wf) :
    s.len = s.toFinset.card % 256 := by
  rw [len_eq_sum_mod, lenSum_eq_card s hWf]

theorem card_lt_of_ne_univ (s : InlineBitSet) (h : s.toFinset ≠ Finset.univ) :
    s.toFinset.card < 256 := by
  have hlt := (Finset.card_lt_iff_ne_univ _).mpr h
  rw [Fintype.card_fin] at hlt
  exact hlt

/-- On every set that is not the full `[0,256)` universe, the `u8` length
does not wrap and equals the true cardinality. -/
theorem len_eq_card_of_ne_univ (s : InlineBitSet) (hWf : s.Wf)
    (h : s.toFinset ≠ Finset.univ) : s.len = s.toFinset.card := by
  rw [len_eq_card_mod s hWf]
  exact Nat.mod_eq_of_lt (card_lt_of_ne_univ s h)

theorem land_lor_self (a b : Nat) : a &&& (a ||| b) = a := by
  apply Nat.eq_of_testBit_eq
  intro i
  rw [Nat.testBit_land, Nat.testBit_lor]
  cases a.testBit i <;> cases b.testBit i <;> rfl

theorem toFinset_intersection (a b : InlineBitSet) :
    (intersection a b).toFinset = a.toFinset ∩ b.toFinset := by
  ext q
  simp only [mem_toFinset, Finset.mem_inter, contains_intersection,
    Bool.and_eq_true]

theorem Wf_intersection (a b : InlineBitSet) (hb : b.Wf) :
    (intersection a b).Wf :=
  ⟨Nat.and_lt_two_pow _ hb.1, Nat.and_lt_two_pow _ hb.2.1,
   Nat.and_lt_two_pow _ hb.2.2.1, Nat.and_lt_two_pow _ hb.2.2.2⟩

end InlineBitSet

/-- The full `[0,256)` universe as an `InlineBitSet`: all four `u64` words
all-ones.  Its total popcount is `256`, so the `u8` accumulator of `len`
wraps and `len` returns `0`. -/
def fullBitSet : InlineBitSet :=
  ⟨2 ^ 64 - 1, 2 ^ 64 - 1, 2 ^ 64 - 1, 2 ^ 64 - 1⟩

/-- The universe minus the single element `0`: `255` members. -/
def nearFullBitSet : InlineBitSet :=
  ⟨2 ^ 64 - 2, 2 ^ 64 - 1, 2 ^ 64 - 1, 2 ^ 64 - 1⟩

/-- Counterexample to claim C7's cardinality law as the program computes it:
at `A` = the full `[0,256)` set and `B` = the full set minus `{0}`,
`A.len()` wraps to `0` (the `u8` accumulator overflows in release mode;
debug builds panic), while `intersection(A, B) = B` has `len() = 255`, so
`len(intersection(A, B)) ≤ min(len(A), len(B))` reads `255 ≤ 0` and is
false. -/
theorem claimC7_counterexample_len_wraps_at_full_set :
    fullBitSet.len = 0 ∧ nearFullBitSet.len = 255 ∧
    (InlineBitSet.intersection fullBitSet nearFullBitSet).len = 255 ∧
    ¬((InlineBitSet.intersection fullBitSet nearFullBitSet).len ≤
        min fullBitSet.len nearFullBitSet.len) := by
  refine ⟨by decide, by decide, by decide, by decide⟩

/-- Claim C7 (amended): the bit-set laws — `A` and `B` are both subsets of
`union(A, B)` (as member sets), `A.is_subset_of(union(A, B))` holds,
`A.without(B)` shares no member with `B`, and the cardinality of
`intersection(A, B)` is at most the minimum of the two cardinalities
*provided neither operand is the full 256-element set*: at a full operand
the `u8` accumulator of `len` wraps its total popcount `256` to `0`
(release semantics; debug builds panic) and the law fails, see the
counterexample.  `Wf` states that each word fits in a `u64`, which holds
for every value of the Rust type. -/
theorem claimC7_bitset_laws (A B : InlineBitSet) (wfA : A.Wf) (wfB : B.Wf) :
    A.toFinset ⊆ (InlineBitSet.union A B).toFinset ∧
    B.toFinset ⊆ (InlineBitSet.union A B).toFinset ∧
    A.is_subset_of (InlineBitSet.union A B) = true ∧
    (A.toFinset ≠ Finset.univ → B.toFinset ≠ Finset.univ →
      (InlineBitSet.intersection A B).len ≤ min A.len B.len) ∧
    ∀ q : Fin 256, ¬((A.without B).contains q = true ∧ B.contains q = true) := by
  refine ⟨?_, ?_, ?_, ?_, ?_⟩
  · intro q hq
    rw [InlineBitSet.mem_toFinset] at hq ⊢
    rw [InlineBitSet.contains_union, hq]
    rfl
  · intro q hq
    rw [InlineBitSet.mem_toFinset] at hq ⊢
    rw [InlineBitSet.contains_union, hq]
    simp
  · simp [InlineBitSet.is_subset_of, InlineBitSet.union,
      InlineBitSet.union_with, InlineBitSet.land_lor_self]
  · intro hA hB
    have hint := InlineBitSet.toFinset_intersection A B
    have hne : (InlineBitSet.intersection A B).toFinset ≠ Finset.univ := by
      rw [hint]
      intro hu
      apply hA
      apply Finset.eq_univ_of_forall
      intro q
      have hq : q ∈ A.toFinset ∩ B.toFinset := hu ▸ Finset.mem_univ q
      exact (Finset.mem_inter.mp hq).1
    rw [InlineBitSet.len_eq_card_of_ne_univ _
        (InlineBitSet.Wf_intersection A B wfB) hne,
      InlineBitSet.len_eq_card_of_ne_univ A wfA hA,
      InlineBitSet.len_eq_card_of_ne_univ B wfB hB, hint]
    exact le_min
      (Finset.card_le_card Finset.inter_subset_left)
      (Finset.card_le_card Finset.inter_subset_right)
  · intro q ⟨h1, h2⟩
    rw [InlineBitSet.contains_without, h2] at h1
    simp at h1

/-- Witness for claim C7's theorem at concrete sets `A = {0}`, `B = {5}`. -/
theorem claimC7_bitset_laws_witness :
    (InlineBitSet.with_only_first.Wf ∧ (InlineBitSet.empty.insert 5).Wf) ∧
    (InlineBitSet.with_only_first.toFinset ⊆
      (InlineBitSet.union InlineBitSet.with_only_first
        (InlineBitSet.empty.insert 5)).toFinset ∧
    (InlineBitSet.empty.insert 5).toFinset ⊆
      (InlineBitSet.union InlineBitSet.with_only_first
        (InlineBitSet.empty.insert 5)).toFinset ∧
    InlineBitSet.with_only_first.is_subset_of
      (InlineBitSet.union InlineBitSet.with_only_first
        (InlineBitSet.empty.insert 5)) = true ∧
    (InlineBitSet.with_only_first.toFinset ≠ Finset.univ →
      (InlineBitSet.empty.insert 5).toFinset ≠ Finset.univ →
      (InlineBitSet.intersection InlineBitSet.with_only_first
        (InlineBitSet.empty.insert 5)).len ≤
        min InlineBitSet.with_only_first.len (InlineBitSet.empty.insert 5).len) ∧
    ∀ q : Fin 256,
      ¬((InlineBitSet.with_only_first.without
          (InlineBitSet.empty.insert 5)).contains q = true ∧
        (InlineBitSet.empty.insert 5).contains q = true)) :=
  ⟨⟨by decide, by decide⟩,
    claimC7_bitset_laws InlineBitSet.with_only_first
      (InlineBitSet.empty.insert 5) (by decide) (by decide)⟩

/-! ## No self-loops in the generated graph, and the search-state invariant
(claim C9) -/

/-- No node of the graph lists itself among its neighbours.  (Out-of-range
indices read the default node, whose adjacency is empty.) -/
def NoSelfLoop (g : Graph) : Prop :=
  ∀ i : Fin 256, (g.node i.val).adjacent.contains i = false

theorem Graph.node_setNode (g : Graph) (m : Nat) (n : Node) (i : Nat) :
    (g.setNode m n).node i =
      if m = i ∧ m < g.nodes.length then n else g.node i := by
  unfold Graph.node Graph.setNode
  simp only [List.getElem?_set]
  by_cases h1 : m = i
  · subst h1
    by_cases h2 : m < g.nodes.length
    · simp [h2]
    · rw [if_pos rfl, if_neg h2, if_neg (fun h => h2 h.2),
        List.getElem?_eq_none (by omega)]
  · rw [if_neg h1, if_neg (fun h => h1 h.1)]

theorem getIslandLoop_colors (b : Board) (c : Color) :
    ∀ (fuel : Nat) (tv : List Pos) (vis : CellMap) (isl adj : List Pos),
    (∀ p ∈ isl, b.colorAt p.1 p.2 = c) →
    (∀ p ∈ adj, b.colorAt p.1 p.2 ≠ c) →
    (∀ p ∈ (getIslandLoop b c fuel tv vis isl adj).1,
      b.colorAt p.1 p.2 = c) ∧
    (∀ p ∈ (getIslandLoop b c fuel tv vis isl adj).2,
      b.colorAt p.1 p.2 ≠ c) := by
  intro fuel
  induction fuel with
  | zero => intro tv vis isl adj hi ha; exact ⟨hi, ha⟩
  | succ n ih =>
    intro tv vis isl adj hi ha
    match tv with
    | [] => exact ⟨hi, ha⟩
    | (x, y) :: rest =>
      rw [getIslandLoop]
      by_cases hc : b.colorAt x y = c
      · rw [if_pos hc]
        apply ih
        · intro p hp
          rcases List.mem_append.mp hp with hp | hp
          · exact hi p hp
          · rw [List.mem_singleton.mp hp]
            exact hc
        · exact ha
      · rw [if_neg hc]
        apply ih
        · exact hi
        · intro p hp
          rcases List.mem_append.mp hp with hp | hp
          · exact ha p hp
          · rw [List.mem_singleton.mp hp]
            exact hc

theorem get_island_colors (b : Board) (p : Pos) :
    (∀ q ∈ (get_island b p).1, b.colorAt q.1 q.2 = b.colorAt p.1 p.2) ∧
    (∀ q ∈ (get_island b p).2, b.colorAt q.1 q.2 ≠ b.colorAt p.1 p.2) := by
  rw [get_island]
  exact getIslandLoop_colors b _ _ _ _ [] [] (by simp) (by simp)

theorem node_append_fresh (g : Graph) (c : Color) (i : Nat) :
    (Graph.mk (g.nodes ++ [⟨InlineBitSet.empty, c⟩])).node i =
      if i < g.nodes.length then g.node i
      else if i = g.nodes.length then ⟨InlineBitSet.empty, c⟩
      else ⟨InlineBitSet.empty, Color.new 0⟩ := by
  unfold Graph.node
  rcases Nat.lt_trichotomy i g.nodes.length with h | h | h
  · rw [if_pos h]
    show ((g.nodes ++ [⟨InlineBitSet.empty, c⟩])[i]?).getD _ = _
    rw [List.getElem?_append_left h]
  · subst h
    show ((g.nodes ++ [⟨InlineBitSet.empty, c⟩])[g.nodes.length]?).getD _ = _
    rw [List.getElem?_append_right (le_refl _), Nat.sub_self,
      if_neg (by omega), if_pos rfl]
    simp
  · show ((g.nodes ++ [⟨InlineBitSet.empty, c⟩])[i]?).getD _ = _
    rw [List.getElem?_eq_none (by simp; omega), if_neg (by omega),
      if_neg (by omega)]
    simp

theorem NoSelfLoop_append_fresh (g : Graph) (c : Color)
    (hg : NoSelfLoop g) :
    NoSelfLoop ⟨g.nodes ++ [⟨InlineBitSet.empty, c⟩]⟩ := by
  intro i
  rw [node_append_fresh]
  split_ifs with h1 h2
  · exact hg i
  · exact InlineBitSet.contains_empty i
  · exact InlineBitSet.contains_empty i

theorem edgeStep_noSelfLoop (map1 : List (Pos × Fin 256)) (new_id : Fin 256)
    (g : Graph) (pos : Pos) (hg : NoSelfLoop g)
    (hid : ∀ id : Fin 256, map1.lookup pos = some id → id ≠ new_id) :
    NoSelfLoop (edgeStep map1 new_id g pos) := by
  unfold edgeStep
  cases hcase : map1.lookup pos with
  | none => exact hg
  | some id =>
    have hne : id ≠ new_id := hid id hcase
    intro i
    simp only
    rw [Graph.node_setNode]
    by_cases hb : new_id.val = i.val ∧ new_id.val <
        (g.setNode id.val
          { g.node id.val with
              adjacent := (g.node id.val).adjacent.insert new_id }).nodes.length
    · rw [if_pos hb]
      have hi_eq : i = new_id := Fin.ext hb.1.symm
      subst hi_eq
      simp only
      rw [InlineBitSet.contains_insert]
      have h1 : (decide (i = id)) = false := by
        simp
        intro h
        exact hne (h ▸ rfl)
      rw [h1]
      simp only [Bool.false_or]
      rw [Graph.node_setNode]
      have hne2 : ¬(id.val = i.val ∧ id.val < g.nodes.length) := by
        rintro ⟨h2, _⟩
        exact hne (Fin.ext h2)
      rw [if_neg hne2]
      exact hg i
    · rw [if_neg hb]
      rw [Graph.node_setNode]
      by_cases hb2 : id.val = i.val ∧ id.val < g.nodes.length
      · rw [if_pos hb2]
        have hi_eq : i = id := Fin.ext hb2.1.symm
        subst hi_eq
        simp only
        rw [InlineBitSet.contains_insert]
        have h1 : (decide (i = new_id)) = false := by
          simp
          intro h
          exact hne (h ▸ rfl)
        rw [h1]
        simp only [Bool.false_or]
        exact hg i
      · rw [if_neg hb2]
        exact hg i

theorem edgeFold_noSelfLoop (map1 : List (Pos × Fin 256)) (new_id : Fin 256) :
    ∀ (l : List Pos) (g : Graph), NoSelfLoop g →
    (∀ pos ∈ l, ∀ id : Fin 256, map1.lookup pos = some id → id ≠ new_id) →
    NoSelfLoop (l.foldl (edgeStep map1 new_id) g) := by
  intro l
  induction l with
  | nil => intro g hg _; exact hg
  | cons pos rest ih =>
    intro g hg hid
    rw [List.foldl_cons]
    exact ih _ (edgeStep_noSelfLoop map1 new_id g pos hg
        (hid pos (by simp)))
      (fun q hq => hid q (by simp [hq]))

theorem genStep_length_ge (b : Board) (st : GenState) (p : Pos) :
    st.g.nodes.length ≤ (genStep b st p).g.nodes.length := by
  cases hl : (st.map.lookup p).isSome with
  | true => rw [genStep, if_pos hl]
  | false =>
    rw [genStep, if_neg (by simp [hl])]
    simp only
    rw [length_edgeFold]
    simp

theorem foldl_genStep_length_ge (b : Board) :
    ∀ (l : List Pos) (st : GenState),
    st.g.nodes.length ≤ (l.foldl (genStep b) st).g.nodes.length := by
  intro l
  induction l with
  | nil => intro st; exact le_refl _
  | cons p rest ih =>
    intro st
    rw [List.foldl_cons]
    exact le_trans (genStep_length_ge b st p) (ih _)

/-- Invariant of the builder fold: every id stored in the cell map is a
valid index below the current node count, and no node is self-adjacent. -/
def BuilderInv (st : GenState) : Prop :=
  (∀ (q : Pos) (v : Fin 256), st.map.lookup q = some v →
    v.val < st.g.nodes.length) ∧ NoSelfLoop st.g

theorem genStep_inv (b : Board) (st : GenState) (p : Pos)
    (hinv : BuilderInv st) (hcap : (genStep b st p).g.nodes.length ≤ 256) :
    BuilderInv (genStep b st p) := by
  obtain ⟨hmv, hns⟩ := hinv
  cases hl : (st.map.lookup p).isSome with
  | true =>
    rw [genStep, if_pos hl]
    exact ⟨hmv, hns⟩
  | false =>
    have hlnone : st.map.lookup p = none := by
      cases h : st.map.lookup p with
      | none => rfl
      | some v => rw [h] at hl; simp at hl
    rw [genStep, if_neg (by simp [hl])] at hcap ⊢
    simp only at hcap ⊢
    rw [length_edgeFold] at hcap
    have hlen1 : st.g.nodes.length + 1 ≤ 256 := by
      simpa using hcap
    have hmod : st.g.nodes.length % 256 = st.g.nodes.length :=
      Nat.mod_eq_of_lt (by omega)
    constructor
    · intro q v hv
      simp only at hv
      rw [lookup_insertIsland] at hv
      rw [length_edgeFold]
      simp only [List.length_append, List.length_singleton]
      by_cases hq : q ∈ (get_island b p).1
      · rw [if_pos hq] at hv
        injection hv with hv
        rw [← hv]
        simp [hmod]
      · rw [if_neg hq] at hv
        have := hmv q v hv
        omega
    · apply edgeFold_noSelfLoop
      · exact NoSelfLoop_append_fresh st.g _ hns
      · intro pos hpos id hid
        rw [lookup_insertIsland] at hid
        have hpos_ne : pos ∉ (get_island b p).1 := by
          intro hmem
          exact (get_island_colors b p).2 pos hpos
            ((get_island_colors b p).1 pos hmem)
        rw [if_neg hpos_ne] at hid
        have hvlt := hmv pos id hid
        intro heq
        rw [heq] at hvlt
        simp [hmod] at hvlt

theorem foldl_genStep_inv (b : Board) :
    ∀ (l : List Pos) (st : GenState), BuilderInv st →
    (l.foldl (genStep b) st).g.nodes.length ≤ 256 →
    BuilderInv (l.foldl (genStep b) st) := by
  intro l
  induction l with
  | nil => intro st h _; exact h
  | cons p rest ih =>
    intro st hinv hcap
    rw [List.foldl_cons] at hcap ⊢
    have hle : (genStep b st p).g.nodes.length ≤ 256 :=
      le_trans (foldl_genStep_length_ge b rest _) hcap
    exact ih _ (genStep_inv b st p hinv hle) hcap

/-- Within the 256-node capacity, the generated graph has no self-loops:
island cells and adjacent cells have different colors, so every edge
connects the fresh node to a strictly older node. -/
theorem generate_graph_noSelfLoop (b : Board)
    (hcap : (generate_graph b).nodes.length ≤ 256) :
    NoSelfLoop (generate_graph b) := by
  have hinv0 : BuilderInv ⟨[], ⟨[]⟩⟩ := by
    constructor
    · intro q v hv
      simp [List.lookup] at hv
    · intro i
      rw [Graph.node]
      simp [InlineBitSet.contains_empty]
  exact (foldl_genStep_inv b (cellOrder b.size) ⟨[], ⟨[]⟩⟩ hinv0 hcap).2

/-- The states reachable by the search engine on graph `g` with per-color
node sets `cn`: the initial state, closed under building a child for a
color (the engine builds children only for candidate colors, a subset of
all colors). -/
inductive ReachableState (g : Graph) (cn : Color → InlineBitSet) : State → Prop
  | init : ReachableState g cn (initState g)
  | child (st : State) (c : Color) (h : ReachableState g cn st) :
      ReachableState g cn (childState g cn st c)

/-- Claim C9: every search state reachable by the engine — the initial
state and every generated child — has disjoint `owned` and `adjacent`
bit-sets and owns node 0, for every board within the 256-region capacity
the engine is specified for. -/
theorem claimC9_search_state_invariants (b : Board) (st : State)
    (hcap : (generate_graph b).nodes.length ≤ 256)
    (hr : ReachableState (generate_graph b)
      (coloredNodes (generate_graph b)) st) :
    (∀ i : Fin 256,
      ¬(st.owned.contains i = true ∧ st.adjacent.contains i = true)) ∧
    st.owned.contains 0 = true := by
  have hns := generate_graph_noSelfLoop b hcap
  induction hr with
  | init =>
    constructor
    · rintro i ⟨h1, h2⟩
      rw [initState] at h1 h2
      simp only at h1 h2
      rw [InlineBitSet.contains_with_only_first] at h1
      have hi0 : i = 0 := by simpa using h1
      subst hi0
      have h3 := hns 0
      rw [Fin.val_zero] at h3
      rw [h3] at h2
      exact Bool.noConfusion h2
    · rw [initState]
      simp only
      rw [InlineBitSet.contains_with_only_first]
      simp
  | child st c _ ih =>
    constructor
    · rintro i ⟨h1, h2⟩
      rw [childState] at h2
      simp only at h2
      rw [InlineBitSet.contains_without] at h2
      rw [childState] at h1
      simp only at h1
      rw [h1] at h2
      simp at h2
    · rw [childState]
      simp only
      rw [InlineBitSet.contains_union, ih.2]
      rfl

/-- Witness for claim C9's theorem: the initial state of the engine on a
concrete 2×2 board. -/
theorem claimC9_search_state_invariants_witness :
    (generate_graph borderDupBoard).nodes.length ≤ 256 ∧
    ((∀ i : Fin 256,
      ¬((initState (generate_graph borderDupBoard)).owned.contains i = true ∧
        (initState (generate_graph borderDupBoard)).adjacent.contains i
          = true)) ∧
    (initState (generate_graph borderDupBoard)).owned.contains 0 = true) :=
  ⟨by decide, claimC9_search_state_invariants borderDupBoard _ (by decide)
    ReachableState.init⟩

/-! ## General characterisation of the `count_elements_only_in_first` slip -/

namespace InlineBitSet

theorem word_xorWords (a b : InlineBitSet) (j : Nat) (hj : j < 4) :
    (InlineBitSet.mk (a.d0 ^^^ (b.d0 &&& b.d0)) (a.d1 ^^^ (b.d1 &&& b.d1))
      (a.d2 ^^^ (b.d2 &&& b.d2)) (a.d3 ^^^ (b.d3 &&& b.d3))).word j =
    a.word j ^^^ (b.word j &&& b.word j) := by
  interval_cases j <;> rfl

/-- What `count_elements_only_in_first` really computes, on every pair of
representable sets: the cardinality of the symmetric difference
`(A ∪ B) \ (A ∩ B)` — not the claimed asymmetric difference `A \ B` —
reduced modulo `2^8` by the wrapping `u8` accumulator. -/
theorem count_elements_only_in_first_eq_symmdiff_card
    (a b : InlineBitSet) (ha : a.Wf) (hb : b.Wf) :
    count_elements_only_in_first a b =
      ((a.toFinset ∪ b.toFinset) \ (a.toFinset ∩ b.toFinset)).card % 256 := by
  set d : InlineBitSet :=
    ⟨a.d0 ^^^ (b.d0 &&& b.d0), a.d1 ^^^ (b.d1 &&& b.d1),
     a.d2 ^^^ (b.d2 &&& b.d2), a.d3 ^^^ (b.d3 &&& b.d3)⟩ with hd
  have hcount : count_elements_only_in_first a b = d.len := rfl
  have hwf : d.Wf :=
    ⟨Nat.xor_lt_two_pow ha.1 (Nat.and_lt_two_pow _ hb.1),
     Nat.xor_lt_two_pow ha.2.1 (Nat.and_lt_two_pow _ hb.2.1),
     Nat.xor_lt_two_pow ha.2.2.1 (Nat.and_lt_two_pow _ hb.2.2.1),
     Nat.xor_lt_two_pow ha.2.2.2 (Nat.and_lt_two_pow _ hb.2.2.2)⟩
  have hfin : d.toFinset = (a.toFinset ∪ b.toFinset) \ (a.toFinset ∩ b.toFinset) := by
    ext q
    rw [mem_toFinset, Finset.mem_sdiff, Finset.mem_union, Finset.mem_inter]
    rw [contains_eq_testBit, hd, word_xorWords a b _ (div64_lt q),
      Nat.testBit_xor, Nat.testBit_land]
    rw [mem_toFinset, mem_toFinset, contains_eq_testBit, contains_eq_testBit]
    cases (a.word (q.val / 64)).testBit (q.val % 64) <;>
      cases (b.word (q.val / 64)).testBit (q.val % 64) <;> simp
  rw [hcount, len_eq_card_mod d hwf, hfin]

end InlineBitSet
